import Mathlib

/-!
# A verification model of the `kvs` log-structured key/value store

This file gives a shallow embedding of the storage engine in `src/kv.rs`:

* the command codec (`serde_json` serialization of the `Command` enum with
  `#[serde(tag = "cmd", content = "params")]`, whose canonical byte form is
  pinned by the repository's own `test_serialize` test);
* the append-only log file (`LogFile`) with its chunked delimiter-scanning
  `read_until`, `append`, and compaction loop;
* the store engine (`KvStore`) with `open`/replay, `get`, `set`, `remove`
  and the 16 MB-threshold `log_compact`.

Bytes are modelled as `Nat` values (< 256 for real data), files as lists of
bytes plus a cursor, and the `HashMap<String, u64>` pointer map as an
association list.  Recursions that walk a file are written with an explicit
fuel argument (always called with fuel `data.length + 1`, which is proved
sufficient) so that every definition is executable by `decide`/`rfl`.
Rust panics (`expect`/`panic!`) and injected I/O failures are modelled as
error values of the `KvError` type.
-/

namespace KvsModel

/-! ## Command codec

`serde_json` escapes `"` and `\` and all control characters below 0x20
(with the short escapes for backspace, tab, newline, form feed, carriage
return, and lowercase `\u00XX` otherwise); all other characters are written
as their UTF-8 bytes. -/

/-- Lowercase hex digit byte, as emitted by `serde_json` `\u00XX` escapes. -/
def hexDigitByte (n : Nat) : Nat := if n < 10 then 48 + n else 87 + n

/-- Standard UTF-8 encoding of the Unicode scalar value `n`. -/
def utf8Bytes (n : Nat) : List Nat :=
  if n < 0x80 then [n]
  else if n < 0x800 then [0xC0 + n / 64, 0x80 + n % 64]
  else if n < 0x10000 then [0xE0 + n / 4096, 0x80 + (n / 64) % 64, 0x80 + n % 64]
  else [0xF0 + n / 262144, 0x80 + (n / 4096) % 64, 0x80 + (n / 64) % 64, 0x80 + n % 64]

/-- The bytes `serde_json` emits for one character of a JSON string. -/
def escapeChar (c : Char) : List Nat :=
  let n := c.toNat
  if n = 34 then [92, 34]
  else if n = 92 then [92, 92]
  else if n = 8 then [92, 98]
  else if n = 9 then [92, 116]
  else if n = 10 then [92, 110]
  else if n = 12 then [92, 102]
  else if n = 13 then [92, 114]
  else if n < 32 then [92, 117, 48, 48, hexDigitByte (n / 16), hexDigitByte (n % 16)]
  else utf8Bytes n

/-- A JSON string literal: quote, escaped characters, quote. -/
def jsonStringBytes (s : String) : List Nat := 34 :: s.data.flatMap escapeChar ++ [34]

/-- The `Command` enum of `kv.rs`: `Set(String, String)` or `Rm(String)`. -/
inductive Command where
  | Set : String → String → Command
  | Rm : String → Command
  deriving DecidableEq

/-- The key a command mutates. -/
def Command.key : Command → String
  | .Set k _ => k
  | .Rm k => k

/-- ASCII bytes of `{"cmd":"Set","params":[`. -/
def encSetHead : List Nat :=
  [123, 34, 99, 109, 100, 34, 58, 34, 83, 101, 116, 34, 44,
   34, 112, 97, 114, 97, 109, 115, 34, 58, 91]

/-- ASCII bytes of `{"cmd":"Rm","params":`. -/
def encRmHead : List Nat :=
  [123, 34, 99, 109, 100, 34, 58, 34, 82, 109, 34, 44,
   34, 112, 97, 114, 97, 109, 115, 34, 58]

/-- `serde_json::to_vec` of a `Command`, exactly as pinned by the repo's
`test_serialize` test: `{"cmd":"Set","params":[<k>,<v>]}` resp.
`{"cmd":"Rm","params":<k>}`. -/
def encodeCommand : Command → List Nat
  | .Set k v => encSetHead ++ jsonStringBytes k ++ [44] ++ jsonStringBytes v ++ [93, 125]
  | .Rm k => encRmHead ++ jsonStringBytes k ++ [125]

/-! ### Decoder

`serde_json::from_slice` on the canonical byte form produced above.  The
model parses exactly that canonical grammar (tag first, no interior
whitespace), tolerating trailing JSON whitespace — `from_slice` skips
trailing whitespace, which matters because the store hands it records that
still carry their trailing newline delimiter.  Lone-surrogate `\u` escapes
are rejected, as `serde_json` rejects them when deserializing a `String`. -/

/-- Value of a hex digit byte (serde accepts both cases). -/
def hexVal (b : Nat) : Option Nat :=
  if 48 ≤ b ∧ b ≤ 57 then some (b - 48)
  else if 97 ≤ b ∧ b ≤ 102 then some (b - 87)
  else if 65 ≤ b ∧ b ≤ 70 then some (b - 55)
  else none

/-- Is `b` a UTF-8 continuation byte? -/
def isCont (b : Nat) : Prop := 128 ≤ b ∧ b < 192

instance (b : Nat) : Decidable (isCont b) := by unfold isCont; infer_instance

/-- Decode one UTF-8 character whose first byte is `b`, the rest of the
input being `rest`. -/
def parseUtf8 (b : Nat) (rest : List Nat) : Option (Char × List Nat) :=
  if b < 0x80 then some (Char.ofNat b, rest)
  else if 0xC2 ≤ b ∧ b ≤ 0xDF then
    match rest with
    | b1 :: rest' =>
      if isCont b1 then some (Char.ofNat ((b - 0xC0) * 64 + (b1 - 0x80)), rest') else none
    | [] => none
  else if 0xE0 ≤ b ∧ b ≤ 0xEF then
    match rest with
    | b1 :: b2 :: rest' =>
      if isCont b1 ∧ isCont b2 then
        let n := (b - 0xE0) * 4096 + (b1 - 0x80) * 64 + (b2 - 0x80)
        if 0x800 ≤ n ∧ (n < 0xD800 ∨ 0xDFFF < n) then some (Char.ofNat n, rest') else none
      else none
    | _ => none
  else if 0xF0 ≤ b ∧ b ≤ 0xF4 then
    match rest with
    | b1 :: b2 :: b3 :: rest' =>
      if isCont b1 ∧ isCont b2 ∧ isCont b3 then
        let n := (b - 0xF0) * 262144 + (b1 - 0x80) * 4096 + (b2 - 0x80) * 64 + (b3 - 0x80)
        if 0x10000 ≤ n ∧ n < 0x110000 then some (Char.ofNat n, rest') else none
      else none
    | _ => none
  else none

/-- Decode one escape sequence (the bytes after a `\`). -/
def parseEscape : List Nat → Option (Char × List Nat)
  | [] => none
  | e :: rest =>
    if e = 34 then some (Char.ofNat 34, rest)
    else if e = 92 then some (Char.ofNat 92, rest)
    else if e = 47 then some (Char.ofNat 47, rest)
    else if e = 98 then some (Char.ofNat 8, rest)
    else if e = 102 then some (Char.ofNat 12, rest)
    else if e = 110 then some (Char.ofNat 10, rest)
    else if e = 114 then some (Char.ofNat 13, rest)
    else if e = 116 then some (Char.ofNat 9, rest)
    else if e = 117 then
      match rest with
      | h1 :: h2 :: h3 :: h4 :: rest' =>
        match hexVal h1, hexVal h2, hexVal h3, hexVal h4 with
        | some a, some b, some c, some d =>
          let n := 4096 * a + 256 * b + 16 * c + d
          if n < 0xD800 then some (Char.ofNat n, rest') else none
        | _, _, _, _ => none
      | _ => none
    else none

/-- Decode one string character (escape or UTF-8), given its first byte. -/
def parseUnit (b : Nat) (rest : List Nat) : Option (Char × List Nat) :=
  if b = 92 then parseEscape rest
  else if b < 32 then none
  else parseUtf8 b rest

/-- Body of a JSON string (after the opening quote), with fuel. -/
def parseStrAux : Nat → List Nat → List Char → Option (String × List Nat)
  | 0, _, _ => none
  | _ + 1, [], _ => none
  | fuel + 1, b :: rest, acc =>
    if b = 34 then some (String.mk acc.reverse, rest)
    else
      match parseUnit b rest with
      | none => none
      | some (c, rest') => parseStrAux fuel rest' (c :: acc)

/-- Parse a JSON string literal at the head of `l`. -/
def parseJsonStr (l : List Nat) : Option (String × List Nat) :=
  match l with
  | 34 :: rest => parseStrAux (rest.length + 1) rest []
  | _ => none

/-- JSON whitespace bytes (space, tab, newline, carriage return). -/
def isWsByte (b : Nat) : Bool := b = 32 ∨ b = 9 ∨ b = 10 ∨ b = 13

/-- `serde_json::from_slice::<Command>` on the canonical record form;
`none` models a decode error. -/
def decodeCommand (l : List Nat) : Option Command :=
  if encSetHead.isPrefixOf l then
    match parseJsonStr (l.drop encSetHead.length) with
    | some (k, r1) =>
      match r1 with
      | 44 :: r2 =>
        match parseJsonStr r2 with
        | some (v, r3) =>
          match r3 with
          | 93 :: 125 :: r4 => if r4.all isWsByte then some (.Set k v) else none
          | _ => none
        | none => none
      | _ => none
    | none => none
  else if encRmHead.isPrefixOf l then
    match parseJsonStr (l.drop encRmHead.length) with
    | some (k, r1) =>
      match r1 with
      | 125 :: r2 => if r2.all isWsByte then some (.Rm k) else none
      | _ => none
    | none => none
  else none

example : decodeCommand (encodeCommand (.Set "key" "value")) = some (.Set "key" "value") := by
  decide

example : decodeCommand (encodeCommand (.Rm "key") ++ [10]) = some (.Rm "key") := by
  decide

example : 10 ∉ encodeCommand (.Set "a\nb" "c") := by decide

/-! ### Codec lemmas: the encoding never contains the delimiter byte, and
decoding inverts encoding (also through a trailing-whitespace tail). -/

theorem char_toNat_valid (c : Char) :
    c.toNat < 0xd800 ∨ (0xdfff < c.toNat ∧ c.toNat < 0x110000) := by
  have h := c.valid
  rcases h with h | ⟨h1, h2⟩
  · exact Or.inl h
  · exact Or.inr ⟨h1, h2⟩

theorem hexDigitByte_bounds (d : Nat) :
    48 ≤ hexDigitByte d ∧ hexDigitByte d ≠ 10 := by
  unfold hexDigitByte
  split <;> omega

theorem hexVal_hexDigitByte (d : Nat) (h : d < 16) : hexVal (hexDigitByte d) = some d := by
  unfold hexVal hexDigitByte
  by_cases h10 : d < 10
  · rw [if_pos h10, if_pos (by omega)]
    congr 1
    omega
  · rw [if_neg h10, if_neg (by omega), if_pos (by omega)]
    congr 1
    omega

theorem utf8Bytes_ne_nil (n : Nat) : utf8Bytes n ≠ [] := by
  unfold utf8Bytes
  by_cases h1 : n < 128
  · simp [h1]
  · rw [if_neg h1]
    by_cases h2 : n < 2048
    · simp [h2]
    · rw [if_neg h2]
      by_cases h3 : n < 65536
      · simp [h3]
      · simp [h3]

theorem not_mem_utf8Bytes (n b : Nat) (h32 : 32 ≤ n) (hb : b ∈ utf8Bytes n) : b ≠ 10 := by
  unfold utf8Bytes at hb
  by_cases h1 : n < 128
  · rw [if_pos h1] at hb
    simp at hb
    omega
  · rw [if_neg h1] at hb
    by_cases h2 : n < 2048
    · rw [if_pos h2] at hb
      simp at hb
      omega
    · rw [if_neg h2] at hb
      by_cases h3 : n < 65536
      · rw [if_pos h3] at hb
        simp at hb
        omega
      · rw [if_neg h3] at hb
        simp at hb
        omega

theorem escapeChar_ne_nil (c : Char) : escapeChar c ≠ [] := by
  simp only [escapeChar]
  repeat' split
  all_goals try exact utf8Bytes_ne_nil _
  all_goals simp

theorem not_mem_escapeChar (c : Char) (b : Nat) (hb : b ∈ escapeChar c) : b ≠ 10 := by
  unfold escapeChar at hb
  by_cases h34 : c.toNat = 34
  · simp [h34] at hb
    omega
  · by_cases h92 : c.toNat = 92
    · simp [h34, h92] at hb
      omega
    · by_cases h8 : c.toNat = 8
      · simp [h34, h92, h8] at hb
        omega
      · by_cases h9 : c.toNat = 9
        · simp [h34, h92, h8, h9] at hb
          omega
        · by_cases h10 : c.toNat = 10
          · simp [h34, h92, h8, h9, h10] at hb
            omega
          · by_cases h12 : c.toNat = 12
            · simp [h34, h92, h8, h9, h10, h12] at hb
              omega
            · by_cases h13 : c.toNat = 13
              · simp [h34, h92, h8, h9, h10, h12, h13] at hb
                omega
              · by_cases hc : c.toNat < 32
                · simp [h34, h92, h8, h9, h10, h12, h13, hc] at hb
                  have h1 := hexDigitByte_bounds (c.toNat / 16)
                  have h2 := hexDigitByte_bounds (c.toNat % 16)
                  rcases hb with h | h | h | h | h | h <;> omega
                · simp [h34, h92, h8, h9, h10, h12, h13, hc] at hb
                  exact not_mem_utf8Bytes c.toNat b (by omega) hb

theorem not_mem_jsonStringBytes (s : String) (b : Nat) (hb : b ∈ jsonStringBytes s) :
    b ≠ 10 := by
  unfold jsonStringBytes at hb
  rcases List.mem_cons.mp hb with h | hb
  · omega
  · simp only [List.append_eq, List.mem_append] at hb
    rcases hb with hb | hb
    · rw [List.mem_flatMap] at hb
      obtain ⟨c, _, hc⟩ := hb
      exact not_mem_escapeChar c b hc
    · simp at hb
      omega

theorem not_mem_encodeCommand (c : Command) (b : Nat) (hb : b ∈ encodeCommand c) :
    b ≠ 10 := by
  cases c with
  | Set k v =>
    simp only [encodeCommand, List.mem_append] at hb
    rcases hb with ((((hb | hb) | hb) | hb) | hb)
    · simp [encSetHead] at hb
      omega
    · exact not_mem_jsonStringBytes _ _ hb
    · simp at hb
      omega
    · exact not_mem_jsonStringBytes _ _ hb
    · simp at hb
      omega
  | Rm k =>
    simp only [encodeCommand, List.mem_append] at hb
    rcases hb with ((hb | hb) | hb)
    · simp [encRmHead] at hb
      omega
    · exact not_mem_jsonStringBytes _ _ hb
    · simp at hb
      omega

theorem delim_not_mem_encodeCommand (c : Command) : 10 ∉ encodeCommand c :=
  fun h => not_mem_encodeCommand c 10 h rfl

theorem encodeCommand_ne_nil (c : Command) : encodeCommand c ≠ [] := by
  cases c <;> simp [encodeCommand, encSetHead, encRmHead]

/-- Parsing one UTF-8-encoded character undoes `utf8Bytes`. -/
theorem parseStrAux_utf8 (fuel : Nat) (c : Char) (rest : List Nat) (acc : List Char)
    (h32 : 32 ≤ c.toNat) (h34 : c.toNat ≠ 34) (h92 : c.toNat ≠ 92) :
    parseStrAux (fuel + 1) (utf8Bytes c.toNat ++ rest) acc = parseStrAux fuel rest (c :: acc) := by
  have hv := char_toNat_valid c
  have hc := Char.ofNat_toNat c
  have h32' : ¬ c.toNat < 32 := by omega
  by_cases h1 : c.toNat < 128
  · have e1 : utf8Bytes c.toNat = [c.toNat] := by rw [utf8Bytes, if_pos h1]
    rw [e1]
    simp [parseStrAux, parseUnit, parseUtf8, h34, h92, h32', h1, hc]
  · by_cases h2 : c.toNat < 2048
    · have e2 : utf8Bytes c.toNat = [192 + c.toNat / 64, 128 + c.toNat % 64] := by
        rw [utf8Bytes, if_neg h1, if_pos h2]
      rw [e2]
      have hb1 : ¬ 192 + c.toNat / 64 = 34 := by omega
      have hb2 : ¬ 192 + c.toNat / 64 = 92 := by omega
      have hb3 : ¬ 192 + c.toNat / 64 < 32 := by omega
      have hb4 : ¬ 192 + c.toNat / 64 < 128 := by omega
      have hb5 : 194 ≤ 192 + c.toNat / 64 ∧ 192 + c.toNat / 64 ≤ 223 := by omega
      have hb6 : isCont (128 + c.toNat % 64) := by unfold isCont; omega
      have harg : (192 + c.toNat / 64 - 192) * 64 + (128 + c.toNat % 64 - 128) = c.toNat := by
        omega
      simp [parseStrAux, parseUnit, parseUtf8, hb1, hb2, hb3, hb4, hb5, hb6, harg, hc]
      rw [show c.toNat / 64 * 64 + c.toNat % 64 = c.toNat from by omega, hc]
    · by_cases h3 : c.toNat < 65536
      · have e3 : utf8Bytes c.toNat
            = [224 + c.toNat / 4096, 128 + c.toNat / 64 % 64, 128 + c.toNat % 64] := by
          rw [utf8Bytes, if_neg h1, if_neg h2, if_pos h3]
        rw [e3]
        have hb1 : ¬ 224 + c.toNat / 4096 = 34 := by omega
        have hb2 : ¬ 224 + c.toNat / 4096 = 92 := by omega
        have hb3 : ¬ 224 + c.toNat / 4096 < 32 := by omega
        have hb4 : ¬ 224 + c.toNat / 4096 < 128 := by omega
        have hb5 : ¬ (194 ≤ 224 + c.toNat / 4096 ∧ 224 + c.toNat / 4096 ≤ 223) := by omega
        have hb6 : 224 ≤ 224 + c.toNat / 4096 ∧ 224 + c.toNat / 4096 ≤ 239 := by omega
        have hb7 : isCont (128 + c.toNat / 64 % 64) := by unfold isCont; omega
        have hb8 : isCont (128 + c.toNat % 64) := by unfold isCont; omega
        have harg : (224 + c.toNat / 4096 - 224) * 4096 + (128 + c.toNat / 64 % 64 - 128) * 64
            + (128 + c.toNat % 64 - 128) = c.toNat := by omega
        have hval : 2048 ≤ c.toNat ∧ (c.toNat < 55296 ∨ 57343 < c.toNat) := by omega
        simp [parseStrAux, parseUnit, parseUtf8, hb1, hb2, hb3, hb4, hb5, hb6, hb7, hb8,
          harg, hval, hc]
        rw [show c.toNat / 4096 * 4096 + c.toNat / 64 % 64 * 64 + c.toNat % 64 = c.toNat
          from by omega]
        rw [if_pos hval]
        simp [hc]
      · have e4 : utf8Bytes c.toNat
            = [240 + c.toNat / 262144, 128 + c.toNat / 4096 % 64,
               128 + c.toNat / 64 % 64, 128 + c.toNat % 64] := by
          rw [utf8Bytes, if_neg h1, if_neg h2, if_neg h3]
        rw [e4]
        have hb1 : ¬ 240 + c.toNat / 262144 = 34 := by omega
        have hb2 : ¬ 240 + c.toNat / 262144 = 92 := by omega
        have hb3 : ¬ 240 + c.toNat / 262144 < 32 := by omega
        have hb4 : ¬ 240 + c.toNat / 262144 < 128 := by omega
        have hb5 : ¬ (194 ≤ 240 + c.toNat / 262144 ∧ 240 + c.toNat / 262144 ≤ 223) := by omega
        have hb6 : ¬ (224 ≤ 240 + c.toNat / 262144 ∧ 240 + c.toNat / 262144 ≤ 239) := by omega
        have hb7 : 240 ≤ 240 + c.toNat / 262144 ∧ 240 + c.toNat / 262144 ≤ 244 := by omega
        have hb8 : isCont (128 + c.toNat / 4096 % 64) := by unfold isCont; omega
        have hb9 : isCont (128 + c.toNat / 64 % 64) := by unfold isCont; omega
        have hb10 : isCont (128 + c.toNat % 64) := by unfold isCont; omega
        have harg : (240 + c.toNat / 262144 - 240) * 262144
            + (128 + c.toNat / 4096 % 64 - 128) * 4096
            + (128 + c.toNat / 64 % 64 - 128) * 64 + (128 + c.toNat % 64 - 128) = c.toNat := by
          omega
        have hval : 65536 ≤ c.toNat ∧ c.toNat < 1114112 := by omega
        simp [parseStrAux, parseUnit, parseUtf8, hb1, hb2, hb3, hb4, hb5, hb6, hb7, hb8, hb9,
          hb10, harg, hval, hc]
        rw [show c.toNat / 262144 * 262144 + c.toNat / 4096 % 64 * 4096 + c.toNat / 64 % 64 * 64
          + c.toNat % 64 = c.toNat from by omega]
        rw [if_pos hval]
        simp [hc]

/-- Parsing one string character undoes `escapeChar`. -/
theorem parseStrAux_escape (fuel : Nat) (c : Char) (rest : List Nat) (acc : List Char) :
    parseStrAux (fuel + 1) (escapeChar c ++ rest) acc = parseStrAux fuel rest (c :: acc) := by
  have hc := Char.ofNat_toNat c
  by_cases h34 : c.toNat = 34
  · have hcc : Char.ofNat 34 = c := by rw [← h34]; exact hc
    simp [escapeChar, h34, parseStrAux, parseUnit, parseEscape]
    rw [hcc]
  · by_cases h92 : c.toNat = 92
    · have hcc : Char.ofNat 92 = c := by rw [← h92]; exact hc
      simp [escapeChar, h34, h92, parseStrAux, parseUnit, parseEscape]
      rw [hcc]
    · by_cases h8 : c.toNat = 8
      · have hcc : Char.ofNat 8 = c := by rw [← h8]; exact hc
        simp [escapeChar, h34, h92, h8, parseStrAux, parseUnit, parseEscape]
        rw [hcc]
      · by_cases h9 : c.toNat = 9
        · have hcc : Char.ofNat 9 = c := by rw [← h9]; exact hc
          simp [escapeChar, h34, h92, h8, h9, parseStrAux, parseUnit, parseEscape]
          rw [hcc]
        · by_cases h10 : c.toNat = 10
          · have hcc : Char.ofNat 10 = c := by rw [← h10]; exact hc
            simp [escapeChar, h34, h92, h8, h9, h10, parseStrAux, parseUnit, parseEscape]
            rw [hcc]
          · by_cases h12 : c.toNat = 12
            · have hcc : Char.ofNat 12 = c := by rw [← h12]; exact hc
              simp [escapeChar, h34, h92, h8, h9, h10, h12, parseStrAux, parseUnit,
                parseEscape]
              rw [hcc]
            · by_cases h13 : c.toNat = 13
              · have hcc : Char.ofNat 13 = c := by rw [← h13]; exact hc
                simp [escapeChar, h34, h92, h8, h9, h10, h12, h13, parseStrAux, parseUnit,
                  parseEscape]
                rw [hcc]
              · by_cases hlt : c.toNat < 32
                · have hd1 := hexVal_hexDigitByte (c.toNat / 16) (by omega)
                  have hd2 := hexVal_hexDigitByte (c.toNat % 16) (by omega)
                  have harg : 4096 * 0 + 256 * 0 + 16 * (c.toNat / 16) + c.toNat % 16
                      = c.toNat := by omega
                  have hlt' : c.toNat < 55296 := by omega
                  have h48 : hexVal 48 = some 0 := rfl
                  simp [escapeChar, h34, h92, h8, h9, h10, h12, h13, hlt, parseStrAux,
                    parseUnit, parseEscape, hd1, hd2, h48]
                  rw [show 16 * (c.toNat / 16) + c.toNat % 16 = c.toNat from by omega]
                  rw [if_pos hlt']
                  simp [hc]
                · have e : escapeChar c = utf8Bytes c.toNat := by
                    simp [escapeChar, h34, h92, h8, h9, h10, h12, h13, hlt]
                  rw [e]
                  exact parseStrAux_utf8 fuel c rest acc (by omega) h34 h92

/-- Each character contributes at least one byte. -/
theorem length_le_flatMap_escapeChar (cs : List Char) :
    cs.length ≤ (cs.flatMap escapeChar).length := by
  induction cs with
  | nil => simp
  | cons c cs ih =>
    have h := List.length_pos.mpr (escapeChar_ne_nil c)
    simp only [List.flatMap_cons, List.length_append, List.length_cons]
    omega

/-- The string-body parser undoes character-by-character escaping. -/
theorem parseStrAux_roundtrip (cs : List Char) :
    ∀ (fuel : Nat) (acc : List Char) (tail : List Nat), cs.length + 1 ≤ fuel →
      parseStrAux fuel (cs.flatMap escapeChar ++ 34 :: tail) acc
        = some (String.mk (acc.reverse ++ cs), tail) := by
  induction cs with
  | nil =>
    intro fuel acc tail h
    obtain ⟨f, rfl⟩ : ∃ f, fuel = f + 1 := ⟨fuel - 1, by omega⟩
    simp [parseStrAux]
  | cons c cs ih =>
    intro fuel acc tail h
    obtain ⟨f, rfl⟩ : ∃ f, fuel = f + 1 := ⟨fuel - 1, by omega⟩
    rw [List.flatMap_cons, List.append_assoc, parseStrAux_escape]
    rw [ih f (c :: acc) tail (by simp at h ⊢; omega)]
    simp

/-- Parsing a JSON string literal undoes `jsonStringBytes`. -/
theorem parseJsonStr_encode (s : String) (rest : List Nat) :
    parseJsonStr (jsonStringBytes s ++ rest) = some (s, rest) := by
  have hlen := length_le_flatMap_escapeChar s.data
  have e : jsonStringBytes s ++ rest = 34 :: (s.data.flatMap escapeChar ++ 34 :: rest) := by
    simp [jsonStringBytes]
  rw [e]
  show parseStrAux ((s.data.flatMap escapeChar ++ 34 :: rest).length + 1)
    (s.data.flatMap escapeChar ++ 34 :: rest) [] = some (s, rest)
  rw [parseStrAux_roundtrip s.data _ [] rest
    (by simp only [List.length_append, List.length_cons]; omega)]
  simp

theorem encSetHead_isPrefixOf_append (t : List Nat) :
    encSetHead.isPrefixOf (encSetHead ++ t) = true := by
  rw [List.isPrefixOf_iff_prefix]
  exact List.prefix_append _ _

theorem encRmHead_isPrefixOf_append (t : List Nat) :
    encRmHead.isPrefixOf (encRmHead ++ t) = true := by
  rw [List.isPrefixOf_iff_prefix]
  exact List.prefix_append _ _

theorem not_setHead_prefix_rm (t : List Nat) :
    encSetHead.isPrefixOf (encRmHead ++ t) = false := by
  rw [Bool.eq_false_iff]
  intro h
  rw [List.isPrefixOf_iff_prefix] at h
  obtain ⟨u, hu⟩ := h
  simp [encSetHead, encRmHead] at hu

/-- Round trip: decoding an encoded command, possibly followed by trailing
JSON whitespace (such as the newline record delimiter), recovers it. -/
theorem decodeCommand_encode_ws (c : Command) (ws : List Nat) (h : ws.all isWsByte) :
    decodeCommand (encodeCommand c ++ ws) = some c := by
  cases c with
  | Set k v =>
    have e : encodeCommand (.Set k v) ++ ws
        = encSetHead ++ (jsonStringBytes k ++ (44 :: (jsonStringBytes v ++ (93 :: 125 :: ws)))) := by
      simp [encodeCommand]
    rw [e, decodeCommand, if_pos (encSetHead_isPrefixOf_append _), List.drop_left]
    simp [parseJsonStr_encode, h]
  | Rm k =>
    have e : encodeCommand (.Rm k) ++ ws
        = encRmHead ++ (jsonStringBytes k ++ (125 :: ws)) := by
      simp [encodeCommand]
    rw [e, decodeCommand, if_neg (by simp [not_setHead_prefix_rm]),
      if_pos (encRmHead_isPrefixOf_append _), List.drop_left]
    simp [parseJsonStr_encode, h]

theorem decodeCommand_encode (c : Command) : decodeCommand (encodeCommand c) = some c := by
  have h := decodeCommand_encode_ws c [] rfl
  simpa using h

theorem decodeCommand_encode_delim (c : Command) :
    decodeCommand (encodeCommand c ++ [10]) = some c :=
  decodeCommand_encode_ws c [10] rfl

/-! ## The log file

`LogFile` owns one append-only file.  We model the file as its byte
content plus the handle's cursor position. -/

/-- The state of `LogFile`'s `head_log` file: content bytes and cursor. -/
structure LogFile where
  data : List Nat
  pos : Nat
  deriving DecidableEq

/-- Index of the first occurrence of byte `d` in `l`. -/
def findDelim (d : Nat) : List Nat → Option Nat
  | [] => none
  | b :: rest => if b = d then some 0 else (findDelim d rest).map (· + 1)

/-- The number of bytes one `read_until` call consumes from position `pos`:
up to and including the first delimiter, or everything to end-of-data when
no delimiter follows. -/
def untilLen (d : Nat) (data : List Nat) (pos : Nat) : Nat :=
  match findDelim d (data.drop pos) with
  | some i => i + 1
  | none => data.length - pos

/-- `LogFile::read_until`: read forward from `pos` in chunks of
`CHUNK_SIZE = 8` bytes, scanning each chunk for the delimiter; on a hit,
rewind the cursor to just after the delimiter (`seek_relative`) and stop.
Returns `(byte count read, new cursor)`; the bytes the caller sees in
`buf[0..n]` are `(data.drop pos).take n`.  The loop is written with
explicit fuel (callers pass `data.length + 1`, proved sufficient below) so
that it stays structurally recursive and executable. -/
def readUntilAux (fuel : Nat) (data : List Nat) (d : Nat) (pos acc : Nat) : Nat × Nat :=
  match fuel with
  | 0 => (acc, pos)
  | fuel + 1 =>
    if ((data.drop pos).take 8).length = 0 then (acc, pos)
    else
      match findDelim d ((data.drop pos).take 8) with
      | some i => (acc + i + 1, pos + i + 1)
      | none =>
        readUntilAux fuel data d (pos + ((data.drop pos).take 8).length)
          (acc + ((data.drop pos).take 8).length)

/-- `read_until` on a file handle: count and new cursor. -/
def LogFile.readUntil (f : LogFile) (d : Nat) : Nat × Nat :=
  readUntilAux (f.data.length + 1) f.data d f.pos 0

/-- `LogFile::append`: seek to end-of-file; if the file is non-empty write
the delimiter first; then write `buf`.  Returns the new state and the byte
count written. -/
def LogFile.append (f : LogFile) (buf : List Nat) : LogFile × Nat :=
  let sep : List Nat := if f.data.length > 0 then [10] else []
  (⟨f.data ++ sep ++ buf, (f.data ++ sep ++ buf).length⟩, sep.length + buf.length)

/-! ### `read_until` characterization -/

theorem findDelim_append_of_some (d : Nat) (l1 l2 : List Nat) (i : Nat)
    (h : findDelim d l1 = some i) : findDelim d (l1 ++ l2) = some i := by
  induction l1 generalizing i with
  | nil => simp [findDelim] at h
  | cons b rest ih =>
    by_cases hb : b = d
    · simp [findDelim, hb] at h ⊢
      omega
    · simp only [findDelim, hb, if_false, Option.map_eq_some'] at h
      obtain ⟨j, hj, rfl⟩ := h
      simp only [List.cons_append, findDelim, hb, if_false, List.append_eq, ih j hj]
      rfl

theorem findDelim_append_of_none (d : Nat) (l1 l2 : List Nat)
    (h : findDelim d l1 = none) : findDelim d (l1 ++ l2) = (findDelim d l2).map (· + l1.length) := by
  induction l1 with
  | nil =>
    cases hfd : findDelim d l2 <;> simp [hfd]
  | cons b rest ih =>
    by_cases hb : b = d
    · simp [findDelim, hb] at h
    · simp only [findDelim, hb, if_false, Option.map_eq_none'] at h
      simp only [List.cons_append, findDelim, hb, if_false, List.append_eq, ih h,
        Option.map_map, List.length_cons]
      cases hfd : findDelim d l2 <;> simp

theorem findDelim_eq_none_iff (d : Nat) (l : List Nat) :
    findDelim d l = none ↔ d ∉ l := by
  induction l with
  | nil => simp [findDelim]
  | cons b rest ih =>
    by_cases hb : b = d
    · simp [findDelim, hb]
    · have hb' : ¬ d = b := fun h => hb h.symm
      simp [findDelim, hb, hb', ih]

theorem findDelim_lt_length (d : Nat) (l : List Nat) (i : Nat)
    (h : findDelim d l = some i) : i < l.length := by
  induction l generalizing i with
  | nil => simp [findDelim] at h
  | cons b rest ih =>
    by_cases hb : b = d
    · simp [findDelim, hb] at h
      simp only [List.length_cons]
      omega
    · simp [findDelim, hb] at h
      cases hfd : findDelim d rest with
      | some j =>
        rw [hfd] at h
        simp at h
        have := ih j hfd
        simp
        omega
      | none => rw [hfd] at h; simp at h

theorem findDelim_take (d : Nat) (l : List Nat) (m i : Nat)
    (h : findDelim d (l.take m) = some i) : findDelim d l = some i := by
  have e := findDelim_append_of_some d (l.take m) (l.drop m) i h
  rwa [List.take_append_drop] at e

theorem untilLen_of_ge (d : Nat) (data : List Nat) (pos : Nat)
    (h : data.length ≤ pos) : untilLen d data pos = 0 := by
  unfold untilLen
  rw [List.drop_eq_nil_of_le h]
  simp [findDelim]
  omega

theorem untilLen_pos (d : Nat) (data : List Nat) (pos : Nat)
    (h : pos < data.length) : 1 ≤ untilLen d data pos := by
  unfold untilLen
  cases hfd : findDelim d (data.drop pos) with
  | some i =>
    show 1 ≤ i + 1
    omega
  | none =>
    show 1 ≤ data.length - pos
    omega

theorem untilLen_le (d : Nat) (data : List Nat) (pos : Nat) :
    untilLen d data pos ≤ data.length - pos := by
  unfold untilLen
  cases hfd : findDelim d (data.drop pos) with
  | some i =>
    have := findDelim_lt_length d _ i hfd
    rw [List.length_drop] at this
    show i + 1 ≤ data.length - pos
    omega
  | none =>
    show data.length - pos ≤ data.length - pos
    omega

theorem untilLen_step (d : Nat) (data : List Nat) (pos : Nat)
    (hpos : pos < data.length)
    (hnone : findDelim d ((data.drop pos).take 8) = none) :
    untilLen d data pos
      = ((data.drop pos).take 8).length
        + untilLen d data (pos + ((data.drop pos).take 8).length) := by
  have hlr : (data.drop pos).length = data.length - pos := List.length_drop ..
  have hlen : ((data.drop pos).take 8).length = min 8 (data.length - pos) := by
    rw [List.length_take, hlr]
  have hsplit := findDelim_append_of_none d ((data.drop pos).take 8) ((data.drop pos).drop 8)
    hnone
  rw [List.take_append_drop] at hsplit
  have hdd : (data.drop pos).drop 8 = data.drop (pos + 8) := by
    rw [List.drop_drop]
  by_cases hbig : 8 ≤ data.length - pos
  · have hn8 : ((data.drop pos).take 8).length = 8 := by omega
    rw [hn8]
    unfold untilLen
    rw [hn8] at hsplit
    rw [hsplit, hdd]
    cases hfd : findDelim d (data.drop (pos + 8)) with
    | some j =>
      show j + 8 + 1 = 8 + (j + 1)
      omega
    | none =>
      show data.length - pos = 8 + (data.length - (pos + 8))
      omega
  · have hn : ((data.drop pos).take 8).length = data.length - pos := by omega
    rw [hn]
    have hge : data.length ≤ pos + (data.length - pos) := by omega
    rw [untilLen_of_ge d data _ hge]
    unfold untilLen
    rw [hsplit]
    have hnil : (data.drop pos).drop 8 = [] := by
      apply List.drop_eq_nil_of_le
      omega
    rw [hnil]
    show data.length - pos = data.length - pos + 0
    omega

/-- The chunked scanning loop of `read_until` computes exactly
`untilLen`: the count through the first delimiter at or after `pos` (or to
end-of-data), with the cursor advanced by the same amount. -/
theorem readUntilAux_eq (d : Nat) (data : List Nat) :
    ∀ (fuel pos acc : Nat), data.length ≤ pos + fuel →
      readUntilAux fuel data d pos acc
        = (acc + untilLen d data pos, pos + untilLen d data pos) := by
  intro fuel
  induction fuel with
  | zero =>
    intro pos acc h
    rw [untilLen_of_ge d data pos (by omega)]
    rfl
  | succ fuel ih =>
    intro pos acc h
    by_cases hpos : data.length ≤ pos
    · rw [untilLen_of_ge d data pos hpos]
      have hchunk : (data.drop pos).take 8 = [] := by
        rw [List.drop_eq_nil_of_le hpos]
        rfl
      simp [readUntilAux, hchunk]
    · push_neg at hpos
      have hchunk_ne : ((data.drop pos).take 8).length ≠ 0 := by
        rw [List.length_take, List.length_drop]
        omega
      cases hfd : findDelim d ((data.drop pos).take 8) with
      | some i =>
        have hful : findDelim d (data.drop pos) = some i := findDelim_take d _ 8 i hfd
        have hu : untilLen d data pos = i + 1 := by unfold untilLen; rw [hful]
        simp only [readUntilAux, hfd, if_neg hchunk_ne, hu]
        simp only [Prod.mk.injEq]
        exact ⟨by omega, by omega⟩
      | none =>
        have hrec := ih (pos + ((data.drop pos).take 8).length)
          (acc + ((data.drop pos).take 8).length)
          (by rw [List.length_take, List.length_drop]; omega)
        have hstep := untilLen_step d data pos hpos hfd
        simp only [readUntilAux, hfd, if_neg hchunk_ne, hrec]
        simp only [Prod.mk.injEq]
        exact ⟨by omega, by omega⟩

/-! ## The in-memory index

`log_pointer_map : HashMap<String, u64>` modelled as an association list
with unique keys.  `insertKey` is the upsert
`entry(k).and_modify(|e| *e = off).or_insert(off)`; `removeKey` is
`HashMap::remove` (the key is absent afterwards). -/

/-- `HashMap` lookup. -/
def lookupKey {α : Type} : List (String × α) → String → Option α
  | [], _ => none
  | p :: rest, k => if p.1 = k then some p.2 else lookupKey rest k

/-- `HashMap` upsert. -/
def insertKey {α : Type} : List (String × α) → String → α → List (String × α)
  | [], k, v => [(k, v)]
  | p :: rest, k, v => if p.1 = k then (k, v) :: rest else p :: insertKey rest k v

/-- `HashMap::remove` (all entries for the key; on a unique-key map, the
entry). -/
def removeKey {α : Type} : List (String × α) → String → List (String × α)
  | [], _ => []
  | p :: rest, k => if p.1 = k then removeKey rest k else p :: removeKey rest k

/-- The key set of the map. -/
def keysOf {α : Type} (m : List (String × α)) : List String := m.map Prod.fst

/-- The value multiset of the map (`HashMap::values`). -/
def valuesOf {α : Type} (m : List (String × α)) : List α := m.map Prod.snd

theorem lookupKey_insertKey_self {α : Type} (m : List (String × α)) (k : String) (v : α) :
    lookupKey (insertKey m k v) k = some v := by
  induction m with
  | nil => simp [insertKey, lookupKey]
  | cons p rest ih =>
    by_cases hp : p.1 = k
    · rw [insertKey, if_pos hp, lookupKey, if_pos rfl]
    · rw [insertKey, if_neg hp, lookupKey, if_neg hp, ih]

theorem lookupKey_insertKey_ne {α : Type} (m : List (String × α)) (k k' : String) (v : α)
    (h : k' ≠ k) : lookupKey (insertKey m k v) k' = lookupKey m k' := by
  have hkk : ¬ k = k' := fun hh => h hh.symm
  induction m with
  | nil =>
    show lookupKey [(k, v)] k' = none
    rw [lookupKey, if_neg hkk]
    rfl
  | cons p rest ih =>
    by_cases hp : p.1 = k
    · rw [insertKey, if_pos hp]
      have hpk : ¬ p.1 = k' := by rw [hp]; exact hkk
      rw [lookupKey, if_neg hkk, lookupKey, if_neg hpk]
    · rw [insertKey, if_neg hp]
      by_cases hp' : p.1 = k'
      · rw [lookupKey, if_pos hp', lookupKey, if_pos hp']
      · rw [lookupKey, if_neg hp', lookupKey, if_neg hp', ih]

theorem lookupKey_removeKey_self {α : Type} (m : List (String × α)) (k : String) :
    lookupKey (removeKey m k) k = none := by
  induction m with
  | nil => rfl
  | cons p rest ih =>
    by_cases hp : p.1 = k
    · rw [removeKey, if_pos hp, ih]
    · rw [removeKey, if_neg hp, lookupKey, if_neg hp, ih]

theorem lookupKey_removeKey_ne {α : Type} (m : List (String × α)) (k k' : String)
    (h : k' ≠ k) : lookupKey (removeKey m k) k' = lookupKey m k' := by
  induction m with
  | nil => rfl
  | cons p rest ih =>
    by_cases hp : p.1 = k
    · have hpk : ¬ p.1 = k' := by
        rw [hp]
        exact fun hh => h hh.symm
      rw [removeKey, if_pos hp, ih, lookupKey, if_neg hpk]
    · by_cases hp' : p.1 = k'
      · rw [removeKey, if_neg hp, lookupKey, if_pos hp', lookupKey, if_pos hp']
      · rw [removeKey, if_neg hp, lookupKey, if_neg hp', lookupKey, if_neg hp', ih]

theorem lookupKey_mem {α : Type} (m : List (String × α)) (k : String) (v : α)
    (h : lookupKey m k = some v) : (k, v) ∈ m := by
  induction m with
  | nil => simp [lookupKey] at h
  | cons p rest ih =>
    by_cases hp : p.1 = k
    · rw [lookupKey, if_pos hp] at h
      have hv : p.2 = v := Option.some.inj h
      have hpe : p = (k, v) := by
        obtain ⟨p1, p2⟩ := p
        simp only at hp hv
        rw [hp, hv]
      rw [← hpe]
      exact List.mem_cons_self ..
    · rw [lookupKey, if_neg hp] at h
      exact List.mem_cons_of_mem _ (ih h)

theorem mem_key_of_mem {α : Type} (m : List (String × α)) (k : String) (v : α)
    (h : (k, v) ∈ m) : k ∈ keysOf m := by
  have : k = (k, v).1 := rfl
  rw [this]
  exact List.mem_map_of_mem _ h

theorem mem_lookupKey_of_nodup {α : Type} (m : List (String × α)) (k : String) (v : α)
    (hnd : (keysOf m).Nodup) (h : (k, v) ∈ m) : lookupKey m k = some v := by
  induction m with
  | nil => simp at h
  | cons p rest ih =>
    simp only [keysOf, List.map_cons, List.nodup_cons] at hnd
    rcases List.mem_cons.mp h with h | h
    · rw [← h]
      rw [lookupKey, if_pos rfl]
    · by_cases hp : p.1 = k
      · exfalso
        have hk := mem_key_of_mem rest k v h
        apply hnd.1
        rw [hp]
        exact hk
      · rw [lookupKey, if_neg hp]
        exact ih hnd.2 h

theorem mem_keysOf_insertKey {α : Type} (m : List (String × α)) (k k' : String) (v : α)
    (h : k' ∈ keysOf (insertKey m k v)) : k' ∈ keysOf m ∨ k' = k := by
  induction m with
  | nil =>
    rw [show insertKey ([] : List (String × α)) k v = [(k, v)] from rfl] at h
    simp [keysOf] at h
    exact Or.inr h
  | cons p rest ih =>
    by_cases hp : p.1 = k
    · rw [insertKey, if_pos hp] at h
      rcases List.mem_cons.mp h with h | h
      · exact Or.inr h
      · exact Or.inl (List.mem_cons_of_mem _ h)
    · rw [insertKey, if_neg hp] at h
      rcases List.mem_cons.mp h with h | h
      · exact Or.inl (List.mem_cons.mpr (Or.inl h))
      · rcases ih h with h | h
        · exact Or.inl (List.mem_cons_of_mem _ h)
        · exact Or.inr h

theorem nodup_keys_insertKey {α : Type} (m : List (String × α)) (k : String) (v : α)
    (hnd : (keysOf m).Nodup) : (keysOf (insertKey m k v)).Nodup := by
  induction m with
  | nil => simp [insertKey, keysOf]
  | cons p rest ih =>
    simp only [keysOf, List.map_cons, List.nodup_cons] at hnd
    by_cases hp : p.1 = k
    · rw [insertKey, if_pos hp]
      simp only [keysOf, List.map_cons, List.nodup_cons]
      refine ⟨?_, hnd.2⟩
      rw [← hp]
      exact hnd.1
    · rw [insertKey, if_neg hp]
      simp only [keysOf, List.map_cons, List.nodup_cons]
      refine ⟨?_, ih hnd.2⟩
      intro hmem
      rcases mem_keysOf_insertKey rest k p.1 v hmem with h | h
      · exact hnd.1 h
      · exact hp h

theorem mem_of_mem_removeKey {α : Type} (m : List (String × α)) (k : String)
    (p : String × α) (h : p ∈ removeKey m k) : p ∈ m ∧ p.1 ≠ k := by
  induction m with
  | nil => simp [removeKey] at h
  | cons q rest ih =>
    by_cases hq : q.1 = k
    · rw [removeKey, if_pos hq] at h
      obtain ⟨h1, h2⟩ := ih h
      exact ⟨List.mem_cons_of_mem _ h1, h2⟩
    · rw [removeKey, if_neg hq] at h
      rcases List.mem_cons.mp h with h | h
      · subst h
        exact ⟨List.mem_cons_self .., hq⟩
      · obtain ⟨h1, h2⟩ := ih h
        exact ⟨List.mem_cons_of_mem _ h1, h2⟩

theorem mem_removeKey_of_mem {α : Type} (m : List (String × α)) (k : String)
    (p : String × α) (hp : p ∈ m) (hk : p.1 ≠ k) : p ∈ removeKey m k := by
  induction m with
  | nil => simp at hp
  | cons q rest ih =>
    rcases List.mem_cons.mp hp with h | h
    · subst h
      rw [removeKey, if_neg hk]
      exact List.mem_cons_self ..
    · by_cases hq : q.1 = k
      · rw [removeKey, if_pos hq]
        exact ih h
      · rw [removeKey, if_neg hq]
        exact List.mem_cons_of_mem _ (ih h)

theorem nodup_keys_removeKey {α : Type} (m : List (String × α)) (k : String)
    (hnd : (keysOf m).Nodup) : (keysOf (removeKey m k)).Nodup := by
  induction m with
  | nil => simp [removeKey, keysOf]
  | cons p rest ih =>
    simp only [keysOf, List.map_cons, List.nodup_cons] at hnd
    by_cases hp : p.1 = k
    · rw [removeKey, if_pos hp]
      exact ih hnd.2
    · rw [removeKey, if_neg hp]
      simp only [keysOf, List.map_cons, List.nodup_cons]
      refine ⟨?_, ih hnd.2⟩
      intro hmem
      apply hnd.1
      obtain ⟨q, hq, hq2⟩ := List.mem_map.mp hmem
      have hqm := (mem_of_mem_removeKey rest k q hq).1
      exact List.mem_map.mpr ⟨q, hqm, hq2⟩

/-! ## The store engine -/

/-- Failure modes of engine operations.  The Rust `panic!`/`expect` sites
are modelled as dedicated error values: `getPanic` is
`panic!("invalid write a head log offset")` in `get`, `replayPanic` is
`.expect("WAL log invalid, remove key non existed")` in replay, and
`compactPanic` the `expect`/`panic!` in the compaction callback.
`appendFailed`/`renameFailed` model injected I/O failures of the tombstone
append in `remove` resp. of the `fs::rename` inside `compact`. -/
inductive KvError where
  | keyNotFound
  | decodeError
  | getPanic
  | replayPanic
  | compactPanic
  | appendFailed
  | renameFailed
  deriving DecidableEq

/-- The pointer map type (`log_pointer_map : HashMap<String, u64>`). -/
abbrev Index := List (String × Nat)

/-- `KvStore`: one log file plus the in-memory pointer map. -/
structure KvStore where
  file : LogFile
  index : Index
  deriving DecidableEq

/-- `KvStore::replay_log_file`: repeatedly `read_until` the next newline;
a zero-byte read means end-of-log; decode the record (`?` on failure);
for `Set` store `current_file_offset() - n`, which equals the record start
`pos`; for `Rm` remove the key, with `.expect(..)` — modelled as
`.error .replayPanic` — if it is absent.  The loop advances the cursor by
`n` bytes per record and is given explicit fuel (one unit per record;
callers pass `data.length + 1`, sufficient since every record consumes at
least one byte).  Caveat: the source reads each record through a fixed
1000-byte stack buffer (`let mut buf = [0; 1000]`); a record longer than
the buffer makes the chunk slice `buf[offset..offset + CHUNK_SIZE]` inside
`read_until` overrun it and the process abort.  The model reads
unboundedly, so it idealizes that abort path away: theorems stated over it
speak for the program only up to this bound. -/
def replayAux (fuel : Nat) (data : List Nat) (pos : Nat) (m : Index) : Except KvError Index :=
  match fuel with
  | 0 => .ok m
  | fuel + 1 =>
    let n := (readUntilAux (data.length + 1) data 10 pos 0).1
    if n = 0 then .ok m
    else
      match decodeCommand ((data.drop pos).take n) with
      | none => .error .decodeError
      | some (.Set k _) => replayAux fuel data (pos + n) (insertKey m k pos)
      | some (.Rm k) =>
        match lookupKey m k with
        | none => .error .replayPanic
        | some _ => replayAux fuel data (pos + n) (removeKey m k)

/-- `KvStore::open` against a directory whose `head.log` currently holds
`data` (a fresh directory gives `data = []`): build the `LogFile`, then
replay it fully to rebuild the index.  After a successful replay the
cursor sits at end-of-file. -/
def KvStore.openFrom (data : List Nat) : Except KvError KvStore :=
  match replayAux (data.length + 1) data 0 [] with
  | .ok m => .ok ⟨⟨data, data.length⟩, m⟩
  | .error e => .error e

/-- `KvStore::get`: index lookup; absent means `Ok(None)` with no disk
access; otherwise `read_until_from_offset` (seek + `read_until`) and
decode: a `Set` yields its value, a `Rm` is the
`panic!("invalid write a head log offset")` site.  Caveat: the source's
read goes through a fixed 1000-byte buffer and aborts on longer records
(the chunk slice in `read_until` overruns it); the model reads
unboundedly.  Only the index-miss branch, which touches no disk in the
source, is insensitive to this idealization. -/
def KvStore.get (s : KvStore) (k : String) : Except KvError (Option String) × KvStore :=
  match lookupKey s.index k with
  | none => (.ok none, s)
  | some off =>
    let r := readUntilAux (s.file.data.length + 1) s.file.data 10 off 0
    let s' : KvStore := ⟨⟨s.file.data, r.2⟩, s.index⟩
    match decodeCommand ((s.file.data.drop off).take r.1) with
    | some (.Set _ v) => (.ok (some v), s')
    | some (.Rm _) => (.error .getPanic, s')
    | none => (.error .decodeError, s')

/-- The loop body of `LogFile::compact`: for each retained offset, read the
record there from the original file (bytes possibly including the trailing
delimiter), compute the new file cursor, write the separating delimiter if
the new file is non-empty, report `(record bytes, new payload offset)` to
the callback — which decodes them and panics unless they are a `Set` —
then write the record with any trailing delimiter stripped.  Caveat: the
source reads each record into a fixed 1000-byte buffer and aborts on
longer records; the model reads unboundedly, so success theorems over it
speak for the program only up to this bound. -/
def compactLoop (data : List Nat) : List Nat → List Nat → Index
    → Except KvError (List Nat × Index)
  | [], newData, newIdx => .ok (newData, newIdx)
  | off :: rest, newData, newIdx =>
    let n := (readUntilAux (data.length + 1) data 10 off 0).1
    let chunk := (data.drop off).take n
    let curOff := newData.length + (if newData.length > 0 then 1 else 0)
    match decodeCommand chunk with
    | some (.Set k _) =>
      let stripped := if chunk.getLast? = some 10 then chunk.dropLast else chunk
      compactLoop data rest
        (newData ++ (if newData.length > 0 then [10] else []) ++ stripped)
        (insertKey newIdx k curOff)
    | some (.Rm _) => .error .compactPanic
    | none => .error .compactPanic

/-- The offsets `log_compact` retains: all current index offsets, sorted
ascending (`sort_unstable`). -/
def retainedOffsets (s : KvStore) : List Nat := (valuesOf s.index).insertionSort (· ≤ ·)

/-- `KvStore::log_compact`: if the current file offset is below the fixed
16 MB threshold do nothing and return `false`; otherwise run
`LogFile::compact` over the sorted retained offsets, building a brand-new
index from the callback's reported offsets, and only after the rename
succeeds (`renameOk` injects an `fs::rename` failure) replace the file —
whose handle is reopened with cursor 0 — and the engine's index. -/
def KvStore.logCompact (s : KvStore) (renameOk : Bool) : Except KvError Bool × KvStore :=
  if s.file.pos < 16000000 then (.ok false, s)
  else
    match compactLoop s.file.data (retainedOffsets s) [] [] with
    | .error e => (.error e, s)
    | .ok (newData, newIdx) =>
      if renameOk then (.ok true, ⟨⟨newData, 0⟩, newIdx⟩)
      else (.error .renameFailed, s)

/-- `KvStore::set`: encode `Set(key, value)`, append it, compute the
record's payload offset as `current_file_offset() - serde_bytes.len()`,
upsert the pointer map, then evaluate the compaction trigger. -/
def KvStore.set (s : KvStore) (k v : String) : Except KvError Unit × KvStore :=
  let enc := encodeCommand (.Set k v)
  let ap := s.file.append enc
  let logOff := ap.1.pos - enc.length
  let s1 : KvStore := ⟨ap.1, insertKey s.index k logOff⟩
  match s1.logCompact true with
  | (.ok _, s2) => (.ok (), s2)
  | (.error e, s2) => (.error e, s2)

/-- `KvStore::remove`: remove the key from the pointer map *first*; if it
was absent fail with "Key not found" and touch nothing else; otherwise
append a `Rm` tombstone (`appendOk` injects an I/O or encode failure of
that append, in which case the map mutation survives but the file is
untouched) and evaluate the compaction trigger. -/
def KvStore.remove (s : KvStore) (k : String) (appendOk : Bool) :
    Except KvError Unit × KvStore :=
  match lookupKey s.index k with
  | none => (.error .keyNotFound, s)
  | some _ =>
    let m1 := removeKey s.index k
    if appendOk then
      let ap := s.file.append (encodeCommand (.Rm k))
      let s1 : KvStore := ⟨ap.1, m1⟩
      match s1.logCompact true with
      | (.ok _, s2) => (.ok (), s2)
      | (.error e, s2) => (.error e, s2)
    else (.error .appendFailed, ⟨s.file, m1⟩)

/-! ## The command-history abstraction

A store state is *abstracted* by the list of mutation commands whose
encoded records form its log.  All correctness statements are phrased
against this history. -/

/-- The byte content of a log whose records are `rs`, separated (never
terminated) by the newline delimiter. -/
def joinRecs : List (List Nat) → List Nat
  | [] => []
  | [r] => r
  | r :: rs => r ++ 10 :: joinRecs rs

/-- The log encoding a command history. -/
def encodeRecords (cmds : List Command) : List Nat := joinRecs (cmds.map encodeCommand)

/-- `(command, payload offset)` pairs of a history laid out from `pos`. -/
def offsetsFrom (pos : Nat) : List Command → List (Command × Nat)
  | [] => []
  | c :: rest => (c, pos) :: offsetsFrom (pos + (encodeCommand c).length + 1) rest

/-- `(command, payload offset)` pairs of a full log. -/
def withOffsets (cmds : List Command) : List (Command × Nat) := offsetsFrom 0 cmds

/-- The payload offset the next record appended after history `cmds` gets. -/
def endOffset (pos : Nat) : List Command → Nat
  | [] => pos
  | c :: rest => endOffset (pos + (encodeCommand c).length + 1) rest

/-- One index step of replay: upsert for `Set`, checked delete for `Rm`. -/
def stepIdx (m : Index) (c : Command) (off : Nat) : Option Index :=
  match c with
  | .Set k _ => some (insertKey m k off)
  | .Rm k =>
    match lookupKey m k with
    | some _ => some (removeKey m k)
    | none => none

/-- Index replay over a command history; `none` exactly when some `Rm`
hits a key that is not live at that point. -/
def runIdx : List (Command × Nat) → Index → Option Index
  | [], m => some m
  | p :: rest, m =>
    match stepIdx m p.1 p.2 with
    | some m' => runIdx rest m'
    | none => none

/-- The observable key/value state after one command. -/
def applyCmd (m : List (String × String)) : Command → List (String × String)
  | .Set k v => insertKey m k v
  | .Rm k => removeKey m k

/-- The observable key/value state after a command history. -/
def specState (cmds : List Command) : List (String × String) := cmds.foldl applyCmd []

/-- What `get k` should observe after history `cmds`. -/
def specGet (cmds : List Command) (k : String) : Option String := lookupKey (specState cmds) k

/-- `s` is the store whose log is exactly the encoding of history `cmds`
and whose index is the (successful) replay of that history. -/
def Abstracts (s : KvStore) (cmds : List Command) : Prop :=
  s.file.data = encodeRecords cmds ∧ runIdx (withOffsets cmds) [] = some s.index

/-- A store state that encodes some consistent history. -/
def Inv (s : KvStore) : Prop := ∃ cmds, Abstracts s cmds

/-- The last record of the history mentioning key `k`, with its offset. -/
def lastFor (k : String) (pairs : List (Command × Nat)) : Option (Command × Nat) :=
  (pairs.filter (fun p => decide (p.1.key = k))).getLast?

/-- States reachable by the engine itself: opened on an empty directory or
on a log it previously produced, then driven by `set`/`get`/`remove`. -/
inductive Reachable : KvStore → Prop where
  | openEmpty (s : KvStore) : KvStore.openFrom [] = .ok s → Reachable s
  | reopen (s s' : KvStore) : Reachable s → KvStore.openFrom s.file.data = .ok s' →
      Reachable s'
  | setStep (s : KvStore) (k v : String) : Reachable s → Reachable (s.set k v).2
  | removeStep (s : KvStore) (k : String) : Reachable s → Reachable (s.remove k true).2
  | getStep (s : KvStore) (k : String) : Reachable s → Reachable (s.get k).2

/-! ### Log-layout lemmas -/

theorem encodeRecords_nil : encodeRecords [] = [] := rfl

theorem encodeRecords_eq_nil_iff (cmds : List Command) :
    encodeRecords cmds = [] ↔ cmds = [] := by
  cases cmds with
  | nil => simp [encodeRecords, joinRecs]
  | cons c rest =>
    simp only [encodeRecords, List.map_cons]
    cases rest with
    | nil => simp [joinRecs, encodeCommand_ne_nil c]
    | cons c2 rest2 => simp [joinRecs, encodeCommand_ne_nil c]

theorem joinRecs_snoc (rs : List (List Nat)) (r : List Nat) (h : rs ≠ []) :
    joinRecs (rs ++ [r]) = joinRecs rs ++ 10 :: r := by
  induction rs with
  | nil => exact absurd rfl h
  | cons x rs ih =>
    cases rs with
    | nil => simp [joinRecs]
    | cons y rs' =>
      have e : joinRecs (x :: (y :: rs') ++ [r]) = x ++ 10 :: joinRecs ((y :: rs') ++ [r]) := by
        rfl
      rw [e, ih (by simp)]
      show x ++ 10 :: (joinRecs (y :: rs') ++ 10 :: r)
          = (x ++ 10 :: joinRecs (y :: rs')) ++ 10 :: r
      simp

theorem encodeRecords_snoc (cmds : List Command) (c : Command) :
    encodeRecords (cmds ++ [c])
      = encodeRecords cmds
        ++ (if (encodeRecords cmds).length > 0 then [10] else []) ++ encodeCommand c := by
  cases hc : cmds with
  | nil => simp [encodeRecords, joinRecs]
  | cons c0 rest =>
    have hne : encodeRecords (c0 :: rest) ≠ [] := by
      rw [Ne, encodeRecords_eq_nil_iff]
      simp
    have hlen : (encodeRecords (c0 :: rest)).length > 0 := List.length_pos.mpr hne
    rw [if_pos hlen]
    have e1 : encodeRecords ((c0 :: rest) ++ [c])
        = joinRecs ((c0 :: rest).map encodeCommand ++ [encodeCommand c]) := by
      simp [encodeRecords]
    rw [e1, joinRecs_snoc _ _ (by simp)]
    simp [encodeRecords]

theorem encodeRecords_cons_nil (c : Command) : encodeRecords [c] = encodeCommand c := rfl

theorem encodeRecords_cons (c : Command) (rest : List Command) (h : rest ≠ []) :
    encodeRecords (c :: rest) = encodeCommand c ++ 10 :: encodeRecords rest := by
  cases rest with
  | nil => exact absurd rfl h
  | cons c2 rest2 => rfl

/-! ### Offset-layout lemmas -/

theorem endOffset_shift (cmds : List Command) :
    ∀ pos : Nat, endOffset pos cmds = pos + endOffset 0 cmds := by
  induction cmds with
  | nil => intro pos; rfl
  | cons c rest ih =>
    intro pos
    rw [endOffset, endOffset, ih, ih (0 + (encodeCommand c).length + 1)]
    omega

theorem endOffset_eq_length (cmds : List Command) :
    endOffset 0 cmds
      = (encodeRecords cmds).length + (if (encodeRecords cmds).length > 0 then 1 else 0) := by
  induction cmds with
  | nil => rfl
  | cons c rest ih =>
    rw [endOffset, endOffset_shift, ih]
    have hc := encodeCommand_ne_nil c
    have hclen : 0 < (encodeCommand c).length := List.length_pos.mpr hc
    have hcons : 0 < (encodeRecords (c :: rest)).length := by
      apply List.length_pos.mpr
      rw [Ne, encodeRecords_eq_nil_iff]
      simp
    rw [if_pos hcons]
    cases hr : rest with
    | nil =>
      simp only [encodeRecords_cons_nil, encodeRecords_nil]
      simp
    | cons c2 rest2 =>
      rw [← hr]
      have hrne : rest ≠ [] := by rw [hr]; simp
      rw [encodeRecords_cons c rest hrne]
      have hrlen : 0 < (encodeRecords rest).length := by
        apply List.length_pos.mpr
        rw [Ne, encodeRecords_eq_nil_iff]
        exact hrne
      rw [if_pos hrlen]
      simp
      omega

theorem offsetsFrom_snoc (cmds : List Command) (c : Command) :
    ∀ pos : Nat, offsetsFrom pos (cmds ++ [c])
      = offsetsFrom pos cmds ++ [(c, endOffset pos cmds)] := by
  induction cmds with
  | nil => intro pos; rfl
  | cons c0 rest ih =>
    intro pos
    show (c0, pos) :: offsetsFrom (pos + (encodeCommand c0).length + 1) (rest ++ [c])
        = (c0, pos) :: offsetsFrom (pos + (encodeCommand c0).length + 1) rest
          ++ [(c, endOffset pos (c0 :: rest))]
    rw [ih]
    rfl

theorem map_fst_offsetsFrom (cmds : List Command) :
    ∀ pos : Nat, (offsetsFrom pos cmds).map Prod.fst = cmds := by
  induction cmds with
  | nil => intro pos; rfl
  | cons c rest ih =>
    intro pos
    show c :: (offsetsFrom (pos + (encodeCommand c).length + 1) rest).map Prod.fst = c :: rest
    rw [ih]

theorem le_snd_of_mem_offsetsFrom (cmds : List Command) :
    ∀ (pos : Nat) (p : Command × Nat), p ∈ offsetsFrom pos cmds → pos ≤ p.2 := by
  induction cmds with
  | nil => intro pos p hp; simp [offsetsFrom] at hp
  | cons c rest ih =>
    intro pos p hp
    rcases List.mem_cons.mp hp with h | h
    · rw [h]
    · have := ih (pos + (encodeCommand c).length + 1) p h
      omega

theorem nodup_snd_offsetsFrom (cmds : List Command) :
    ∀ pos : Nat, ((offsetsFrom pos cmds).map Prod.snd).Nodup := by
  induction cmds with
  | nil => intro pos; simp [offsetsFrom]
  | cons c rest ih =>
    intro pos
    show (pos :: (offsetsFrom (pos + (encodeCommand c).length + 1) rest).map Prod.snd).Nodup
    rw [List.nodup_cons]
    refine ⟨?_, ih _⟩
    intro hmem
    obtain ⟨p, hp, hp2⟩ := List.mem_map.mp hmem
    have := le_snd_of_mem_offsetsFrom rest _ p hp
    omega

/-- An offset determines its pair within one record layout. -/
theorem eq_of_snd_eq_offsetsFrom (cmds : List Command) (pos : Nat)
    (p q : Command × Nat) (hp : p ∈ offsetsFrom pos cmds) (hq : q ∈ offsetsFrom pos cmds)
    (h : p.2 = q.2) : p = q := by
  have hnd := nodup_snd_offsetsFrom cmds pos
  have := List.inj_on_of_nodup_map hnd hp hq h
  exact this


/-! ### Record extraction -/

/-- The record encoding `c` sits at byte offset `off` of the log, followed
either by end-of-file or by the separating delimiter. -/
def RecordAt (data : List Nat) (off : Nat) (c : Command) : Prop :=
  ∃ tail, data.drop off = encodeCommand c ++ tail ∧ (tail = [] ∨ ∃ t, tail = 10 :: t)

theorem recordAt_of_layout (cmds : List Command) :
    ∀ (data : List Nat) (pos : Nat), data.drop pos = encodeRecords cmds →
      ∀ p ∈ offsetsFrom pos cmds, RecordAt data p.2 p.1 := by
  induction cmds with
  | nil =>
    intro data pos h p hp
    simp [offsetsFrom] at hp
  | cons c rest ih =>
    intro data pos h p hp
    rcases List.mem_cons.mp hp with h1 | h1
    · subst h1
      cases hr : rest with
      | nil =>
        refine ⟨[], ?_, Or.inl rfl⟩
        rw [h, hr]
        simp [encodeRecords_cons_nil]
      | cons c2 rest2 =>
        have hrne : rest ≠ [] := by rw [hr]; simp
        refine ⟨10 :: encodeRecords rest, ?_, Or.inr ⟨_, rfl⟩⟩
        rw [h, encodeRecords_cons c rest hrne]
    · cases hr : rest with
      | nil =>
        rw [hr] at h1
        simp [offsetsFrom] at h1
      | cons c2 rest2 =>
        have hrne : rest ≠ [] := by rw [hr]; simp
        apply ih data (pos + (encodeCommand c).length + 1) ?_ p h1
        rw [encodeRecords_cons c rest hrne] at h
        have e1 : encodeCommand c ++ 10 :: encodeRecords rest
            = (encodeCommand c ++ [10]) ++ encodeRecords rest := by simp
        have e2 : data.drop (pos + ((encodeCommand c).length + 1))
            = (data.drop pos).drop ((encodeCommand c).length + 1) :=
          (List.drop_drop _ _ _).symm
        have e3 : (encodeCommand c ++ [10]).length = (encodeCommand c).length + 1 := by simp
        rw [show pos + (encodeCommand c).length + 1 = pos + ((encodeCommand c).length + 1)
          from by omega]
        rw [e2, h, e1, ← e3, List.drop_left]

/-- Reading a record at its offset yields exactly its encoding, possibly
with the trailing delimiter, and the count `untilLen` is its length. -/
theorem recordAt_chunk (data : List Nat) (off : Nat) (c : Command) (h : RecordAt data off c) :
    ∃ w, (w = [] ∨ w = [10]) ∧ untilLen 10 data off = (encodeCommand c).length + w.length
      ∧ (data.drop off).take (untilLen 10 data off) = encodeCommand c ++ w := by
  obtain ⟨tail, hd, ht⟩ := h
  have hfd_enc : findDelim 10 (encodeCommand c) = none :=
    (findDelim_eq_none_iff _ _).mpr (delim_not_mem_encodeCommand c)
  rcases ht with rfl | ⟨t, rfl⟩
  · rw [List.append_nil] at hd
    have hulen : untilLen 10 data off = (encodeCommand c).length := by
      unfold untilLen
      rw [hd, hfd_enc]
      show data.length - off = (encodeCommand c).length
      have := congrArg List.length hd
      rw [List.length_drop] at this
      omega
    refine ⟨[], Or.inl rfl, by rw [hulen]; simp, ?_⟩
    rw [hulen, hd, List.take_length, List.append_nil]
  · have hfd : findDelim 10 (data.drop off) = some (encodeCommand c).length := by
      rw [hd, findDelim_append_of_none 10 _ _ hfd_enc]
      simp [findDelim]
    have hulen : untilLen 10 data off = (encodeCommand c).length + 1 := by
      unfold untilLen
      rw [hfd]
    refine ⟨[10], Or.inr rfl, by rw [hulen]; simp, ?_⟩
    rw [hulen, hd]
    have e1 : encodeCommand c ++ 10 :: t = (encodeCommand c ++ [10]) ++ t := by simp
    have e3 : (encodeCommand c).length + 1 = (encodeCommand c ++ [10]).length := by simp
    rw [e1, e3, List.take_left]

/-! ### Replay-of-history lemmas -/

theorem runIdx_append_some (xs ys : List (Command × Nat)) (m m' : Index)
    (h : runIdx xs m = some m') : runIdx (xs ++ ys) m = runIdx ys m' := by
  induction xs generalizing m with
  | nil =>
    have hmm : m = m' := by simpa [runIdx] using h
    rw [List.nil_append, hmm]
  | cons p rest ih =>
    rw [runIdx] at h
    rw [List.cons_append, runIdx]
    cases hs : stepIdx m p.1 p.2 with
    | none => rw [hs] at h; simp at h
    | some m1 =>
      rw [hs] at h
      exact ih m1 h

theorem runIdx_append_none (xs ys : List (Command × Nat)) (m : Index)
    (h : runIdx xs m = none) : runIdx (xs ++ ys) m = none := by
  induction xs generalizing m with
  | nil => simp [runIdx] at h
  | cons p rest ih =>
    rw [runIdx] at h
    rw [List.cons_append, runIdx]
    cases hs : stepIdx m p.1 p.2 with
    | none => rfl
    | some m1 =>
      rw [hs] at h
      exact ih m1 h

theorem runIdx_snoc (xs : List (Command × Nat)) (p : Command × Nat) (m₀ m : Index)
    (h : runIdx (xs ++ [p]) m₀ = some m) :
    ∃ m1, runIdx xs m₀ = some m1 ∧ stepIdx m1 p.1 p.2 = some m := by
  cases hx : runIdx xs m₀ with
  | none => rw [runIdx_append_none _ _ _ hx] at h; exact absurd h (by simp)
  | some m1 =>
    refine ⟨m1, rfl, ?_⟩
    rw [runIdx_append_some _ _ _ _ hx, runIdx] at h
    cases hs : stepIdx m1 p.1 p.2 with
    | none => rw [hs] at h; simp at h
    | some m2 =>
      rw [hs] at h
      simpa [runIdx] using h

theorem runIdx_nodup (pairs : List (Command × Nat)) :
    ∀ m m' : Index, runIdx pairs m = some m' → (keysOf m).Nodup → (keysOf m').Nodup := by
  induction pairs with
  | nil =>
    intro m m' h hnd
    have hmm : m = m' := by simpa [runIdx] using h
    rw [← hmm]
    exact hnd
  | cons p rest ih =>
    intro m m' h hnd
    rw [runIdx] at h
    cases hs : stepIdx m p.1 p.2 with
    | none => rw [hs] at h; simp at h
    | some m1 =>
      rw [hs] at h
      apply ih m1 m' h
      cases hp : p.1 with
      | Set k v =>
        rw [hp] at hs
        have : m1 = insertKey m k p.2 := by
          simpa [stepIdx] using hs.symm
        rw [this]
        exact nodup_keys_insertKey m k p.2 hnd
      | Rm k =>
        rw [hp, stepIdx] at hs
        cases hl : lookupKey m k with
        | none => rw [hl] at hs; simp at hs
        | some off =>
          rw [hl] at hs
          have : m1 = removeKey m k := by simpa using hs.symm
          rw [this]
          exact nodup_keys_removeKey m k hnd

theorem lastFor_nil (k : String) : lastFor k [] = none := rfl

theorem lastFor_snoc (k : String) (xs : List (Command × Nat)) (p : Command × Nat) :
    lastFor k (xs ++ [p]) = if p.1.key = k then some p else lastFor k xs := by
  unfold lastFor
  rw [List.filter_append]
  by_cases hk : p.1.key = k
  · have e : List.filter (fun q => decide (q.1.key = k)) [p] = [p] := by simp [hk]
    rw [e, List.getLast?_concat, if_pos hk]
  · have e : List.filter (fun q => decide (q.1.key = k)) [p] = [] := by simp [hk]
    rw [e, List.append_nil, if_neg hk]

theorem lastFor_mem (k : String) (pairs : List (Command × Nat)) (p : Command × Nat)
    (h : lastFor k pairs = some p) : p ∈ pairs ∧ p.1.key = k := by
  unfold lastFor at h
  have hm := List.mem_of_getLast?_eq_some h
  refine ⟨List.mem_of_mem_filter hm, ?_⟩
  have := List.of_mem_filter hm
  simpa using this

/-- The central index characterization: after a successful replay, a key
maps to the offset of its last `Set` record, is absent when its last
record is a `Rm`, and is untouched when no record mentions it. -/
theorem runIdx_lookup (pairs : List (Command × Nat)) (m₀ m : Index)
    (h : runIdx pairs m₀ = some m) (k : String) :
    lookupKey m k
      = match lastFor k pairs with
        | some (.Set _ _, off) => some off
        | some (.Rm _, _) => none
        | none => lookupKey m₀ k := by
  induction pairs using List.reverseRecOn generalizing m with
  | nil =>
    have : m = m₀ := by simpa [runIdx] using h.symm
    rw [this, lastFor_nil]
  | append_singleton xs p ihx =>
    obtain ⟨m1, hx, hs⟩ := runIdx_snoc xs p m₀ m h
    rw [lastFor_snoc]
    obtain ⟨c, off⟩ := p
    cases c with
    | Set k' v =>
      have hm : m = insertKey m1 k' off := by
        simpa [stepIdx] using hs.symm
      simp only [Command.key]
      by_cases hk : k' = k
      · subst hk
        rw [if_pos rfl, hm, lookupKey_insertKey_self]
      · rw [if_neg hk, hm, lookupKey_insertKey_ne _ _ _ _ (fun hh => hk hh.symm)]
        exact ihx m1 hx
    | Rm k' =>
      rw [stepIdx] at hs
      cases hl : lookupKey m1 k' with
      | none => rw [hl] at hs; simp only at hs; exact absurd hs (by simp)
      | some o2 =>
        rw [hl] at hs
        have hm : m = removeKey m1 k' := by simpa using hs.symm
        simp only [Command.key]
        by_cases hk : k' = k
        · subst hk
          rw [if_pos rfl, hm, lookupKey_removeKey_self]
        · rw [if_neg hk, hm, lookupKey_removeKey_ne _ _ _ (fun hh => hk hh.symm)]
          exact ihx m1 hx


/-! ### Observable-state lemmas -/

theorem specState_snoc (cmds : List Command) (c : Command) :
    specState (cmds ++ [c]) = applyCmd (specState cmds) c := by
  unfold specState
  rw [List.foldl_append]
  rfl

theorem specGet_snoc_set (cmds : List Command) (k v k' : String) :
    specGet (cmds ++ [.Set k v]) k' = if k' = k then some v else specGet cmds k' := by
  unfold specGet
  rw [specState_snoc]
  show lookupKey (insertKey (specState cmds) k v) k' = _
  by_cases hk : k' = k
  · rw [if_pos hk, hk, lookupKey_insertKey_self]
  · rw [if_neg hk, lookupKey_insertKey_ne _ _ _ _ hk]

theorem specGet_snoc_rm (cmds : List Command) (k k' : String) :
    specGet (cmds ++ [.Rm k]) k' = if k' = k then none else specGet cmds k' := by
  unfold specGet
  rw [specState_snoc]
  show lookupKey (removeKey (specState cmds) k) k' = _
  by_cases hk : k' = k
  · rw [if_pos hk, hk, lookupKey_removeKey_self]
  · rw [if_neg hk, lookupKey_removeKey_ne _ _ _ hk]

/-- The observable value of `k` is the payload of the last `Set` record
for `k`, unless a later `Rm` tombstoned it. -/
theorem specGet_eq_lastFor (cmds : List Command) (k : String) :
    specGet cmds k
      = match lastFor k (withOffsets cmds) with
        | some (.Set _ v, _) => some v
        | some (.Rm _, _) => none
        | none => none := by
  induction cmds using List.reverseRecOn with
  | nil => rfl
  | append_singleton xs c ihx =>
    rw [withOffsets, offsetsFrom_snoc, lastFor_snoc]
    cases c with
    | Set k0 v0 =>
      rw [specGet_snoc_set]
      simp only [Command.key]
      by_cases hk : k0 = k
      · subst hk
        rw [if_pos rfl, if_pos rfl]
      · rw [if_neg hk, if_neg (fun hh => hk hh.symm), ihx]
        rfl
    | Rm k0 =>
      rw [specGet_snoc_rm]
      simp only [Command.key]
      by_cases hk : k0 = k
      · subst hk
        rw [if_pos rfl, if_pos rfl]
      · rw [if_neg hk, if_neg (fun hh => hk hh.symm), ihx]
        rfl

/-! ### Consequences of `Abstracts` -/

theorem abstracts_lookup (s : KvStore) (cmds : List Command) (h : Abstracts s cmds)
    (k : String) :
    lookupKey s.index k
      = match lastFor k (withOffsets cmds) with
        | some (.Set _ _, off) => some off
        | some (.Rm _, _) => none
        | none => none := by
  rw [runIdx_lookup (withOffsets cmds) [] s.index h.2 k]
  cases hlf : lastFor k (withOffsets cmds) with
  | none => rfl
  | some p =>
    obtain ⟨c, off⟩ := p
    cases c <;> rfl

theorem abstracts_nodup (s : KvStore) (cmds : List Command) (h : Abstracts s cmds) :
    (keysOf s.index).Nodup :=
  runIdx_nodup (withOffsets cmds) [] s.index h.2 (by simp [keysOf])

theorem abstracts_lookup_none_iff (s : KvStore) (cmds : List Command)
    (h : Abstracts s cmds) (k : String) :
    lookupKey s.index k = none ↔ specGet cmds k = none := by
  rw [abstracts_lookup s cmds h k, specGet_eq_lastFor]
  cases hlf : lastFor k (withOffsets cmds) with
  | none => simp
  | some p =>
    obtain ⟨c, off⟩ := p
    cases c <;> simp

/-- `get` returns exactly the observable value of the abstract history. -/
theorem get_spec (s : KvStore) (cmds : List Command) (h : Abstracts s cmds) (k : String) :
    (s.get k).1 = .ok (specGet cmds k) := by
  cases hl : lookupKey s.index k with
  | none =>
    have hng : specGet cmds k = none := (abstracts_lookup_none_iff s cmds h k).mp hl
    rw [hng]
    simp only [KvStore.get, hl]
  | some off =>
    have hlk := abstracts_lookup s cmds h k
    rw [hl] at hlk
    cases hlf : lastFor k (withOffsets cmds) with
    | none => rw [hlf] at hlk; simp at hlk
    | some p =>
      obtain ⟨c, off2⟩ := p
      cases c with
      | Rm k2 => rw [hlf] at hlk; simp at hlk
      | Set k2 v =>
        rw [hlf] at hlk
        have hoff : off2 = off := by
          have : some off = some off2 := hlk
          simpa using this.symm
        subst hoff
        have hmem := (lastFor_mem k _ _ hlf).1
        have hrec := recordAt_of_layout cmds s.file.data 0
          (by rw [List.drop_zero]; exact h.1) _ hmem
        obtain ⟨w, hw, hu, hchunk⟩ := recordAt_chunk _ _ _ hrec
        have hread := readUntilAux_eq 10 s.file.data (s.file.data.length + 1) off2 0
          (by omega)
        have hws : w.all isWsByte = true := by
          rcases hw with rfl | rfl <;> rfl
        have hdec : decodeCommand
            ((s.file.data.drop off2).take
              ((readUntilAux (s.file.data.length + 1) s.file.data 10 off2 0).1))
            = some (.Set k2 v) := by
          rw [hread]
          show decodeCommand ((s.file.data.drop off2).take (0 + untilLen 10 s.file.data off2))
            = _
          rw [Nat.zero_add, hchunk]
          exact decodeCommand_encode_ws _ w hws
        simp only [KvStore.get, hl, hdec]
        rw [specGet_eq_lastFor, hlf]


/-! ### Replay correctness -/

theorem untilLen_last_record (data : List Nat) (off : Nat) (c : Command)
    (hd : data.drop off = encodeCommand c) :
    untilLen 10 data off = (encodeCommand c).length
      ∧ (data.drop off).take (untilLen 10 data off) = encodeCommand c := by
  have hfd_enc : findDelim 10 (encodeCommand c) = none :=
    (findDelim_eq_none_iff _ _).mpr (delim_not_mem_encodeCommand c)
  have hulen : untilLen 10 data off = (encodeCommand c).length := by
    unfold untilLen
    rw [hd, hfd_enc]
    show data.length - off = (encodeCommand c).length
    have := congrArg List.length hd
    rw [List.length_drop] at this
    omega
  refine ⟨hulen, ?_⟩
  rw [hulen, hd, List.take_length]

theorem untilLen_mid_record (data : List Nat) (off : Nat) (c : Command) (t : List Nat)
    (hd : data.drop off = encodeCommand c ++ 10 :: t) :
    untilLen 10 data off = (encodeCommand c).length + 1
      ∧ (data.drop off).take (untilLen 10 data off) = encodeCommand c ++ [10]
      ∧ data.drop (off + untilLen 10 data off) = t := by
  have hfd_enc : findDelim 10 (encodeCommand c) = none :=
    (findDelim_eq_none_iff _ _).mpr (delim_not_mem_encodeCommand c)
  have hfd : findDelim 10 (data.drop off) = some (encodeCommand c).length := by
    rw [hd, findDelim_append_of_none 10 _ _ hfd_enc]
    simp [findDelim]
  have hulen : untilLen 10 data off = (encodeCommand c).length + 1 := by
    unfold untilLen
    rw [hfd]
  have e1 : encodeCommand c ++ 10 :: t = (encodeCommand c ++ [10]) ++ t := by simp
  have e3 : (encodeCommand c).length + 1 = (encodeCommand c ++ [10]).length := by simp
  refine ⟨hulen, ?_, ?_⟩
  · rw [hulen, hd, e1, e3, List.take_left]
  · rw [hulen]
    have e2 : data.drop (off + ((encodeCommand c).length + 1))
        = (data.drop off).drop ((encodeCommand c).length + 1) := (List.drop_drop _ _ _).symm
    rw [e2, hd, e1, e3, List.drop_left]

/-- Replay at (or past) end-of-file stops immediately. -/
theorem replayAux_end (fuel : Nat) (data : List Nat) (pos : Nat) (m : Index)
    (h : data.length ≤ pos) : replayAux fuel data pos m = .ok m := by
  cases fuel with
  | zero => rfl
  | succ f =>
    have hn : (readUntilAux (data.length + 1) data 10 pos 0).1 = 0 := by
      rw [readUntilAux_eq 10 data _ pos 0 (by omega), untilLen_of_ge 10 data pos h]
    simp only [replayAux, hn]
    rfl

/-- Replaying a well-formed log from any record boundary computes exactly
the history replay `runIdx`, record by record. -/
theorem replayAux_layout (cmds : List Command) :
    ∀ (data : List Nat) (pos : Nat) (m m' : Index) (fuel : Nat),
      data.drop pos = encodeRecords cmds →
      data.length ≤ pos + fuel →
      runIdx (offsetsFrom pos cmds) m = some m' →
      replayAux fuel data pos m = .ok m' := by
  induction cmds with
  | nil =>
    intro data pos m m' fuel hd hfuel hrun
    have hm : m = m' := by simpa [offsetsFrom, runIdx] using hrun
    have hlen : data.length ≤ pos := by
      have := congrArg List.length hd
      rw [List.length_drop, encodeRecords_nil] at this
      simp at this
      omega
    rw [replayAux_end fuel data pos m hlen, hm]
  | cons c rest ih =>
    intro data pos m m' fuel hd hfuel hrun
    have hposlt : pos < data.length := by
      have := congrArg List.length hd
      rw [List.length_drop] at this
      have hne : encodeRecords (c :: rest) ≠ [] := by
        rw [Ne, encodeRecords_eq_nil_iff]
        simp
      have := List.length_pos.mpr hne
      omega
    have henc1 : 0 < (encodeCommand c).length := List.length_pos.mpr (encodeCommand_ne_nil c)
    cases fuel with
    | zero => omega
    | succ f =>
      have hn : (readUntilAux (data.length + 1) data 10 pos 0).1 = untilLen 10 data pos := by
        rw [readUntilAux_eq 10 data _ pos 0 (by omega)]
        simp
      rw [offsetsFrom] at hrun
      cases hr : rest with
      | nil =>
        subst hr
        have hd1 : data.drop pos = encodeCommand c := hd
        obtain ⟨hu, hchunk⟩ := untilLen_last_record data pos c hd1
        have hnne : ¬ (untilLen 10 data pos = 0) := by omega
        have hdec : decodeCommand ((data.drop pos).take (untilLen 10 data pos)) = some c := by
          rw [hchunk]
          exact decodeCommand_encode c
        have hend : data.length ≤ pos + untilLen 10 data pos := by
          have := congrArg List.length hd1
          rw [List.length_drop] at this
          omega
        cases c with
        | Set k v =>
          have hm' : m' = insertKey m k pos := by
            simpa [runIdx, stepIdx, offsetsFrom] using hrun.symm
          simp only [replayAux, hn, if_neg hnne, hdec]
          rw [replayAux_end f data _ _ hend, hm']
        | Rm k =>
          rw [runIdx] at hrun
          simp only [stepIdx] at hrun
          cases hlk : lookupKey m k with
          | none => rw [hlk] at hrun; simp at hrun
          | some o =>
            rw [hlk] at hrun
            have hm' : m' = removeKey m k := by
              simpa [runIdx, offsetsFrom] using hrun.symm
            simp only [replayAux, hn, if_neg hnne, hdec, hlk]
            rw [replayAux_end f data _ _ hend, hm']
      | cons c2 rest2 =>
        have hrne : rest ≠ [] := by rw [hr]; simp
        have hd1 : data.drop pos = encodeCommand c ++ 10 :: encodeRecords rest := by
          rw [hd, encodeRecords_cons c rest hrne]
        obtain ⟨hu, hchunk, hdrop⟩ := untilLen_mid_record data pos c (encodeRecords rest) hd1
        have hnne : ¬ (untilLen 10 data pos = 0) := by omega
        have hdec : decodeCommand ((data.drop pos).take (untilLen 10 data pos)) = some c := by
          rw [hchunk]
          exact decodeCommand_encode_delim c
        have hpu : pos + untilLen 10 data pos = pos + (encodeCommand c).length + 1 := by
          omega
        cases c with
        | Set k v =>
          rw [runIdx] at hrun
          simp only [stepIdx] at hrun
          simp only [replayAux, hn, if_neg hnne, hdec]
          apply ih data (pos + untilLen 10 data pos) (insertKey m k pos) m' f
          · rw [hdrop]
          · omega
          · rw [hpu]
            exact hrun
        | Rm k =>
          rw [runIdx] at hrun
          simp only [stepIdx] at hrun
          cases hlk : lookupKey m k with
          | none => rw [hlk] at hrun; simp at hrun
          | some o =>
            rw [hlk] at hrun
            simp only [replayAux, hn, if_neg hnne, hdec, hlk]
            apply ih data (pos + untilLen 10 data pos) (removeKey m k) m' f
            · rw [hdrop]
            · omega
            · rw [hpu]
              exact hrun

/-- `open` on a log the store itself wrote rebuilds exactly the history's
index, with the cursor at end-of-file. -/
theorem openFrom_layout (cmds : List Command) (m : Index)
    (hrun : runIdx (withOffsets cmds) [] = some m) :
    KvStore.openFrom (encodeRecords cmds)
      = .ok ⟨⟨encodeRecords cmds, (encodeRecords cmds).length⟩, m⟩ := by
  unfold KvStore.openFrom
  rw [replayAux_layout cmds (encodeRecords cmds) 0 [] m ((encodeRecords cmds).length + 1)
    (by rw [List.drop_zero]) (by omega) hrun]

theorem openFrom_abstracts (cmds : List Command) (m : Index)
    (hrun : runIdx (withOffsets cmds) [] = some m) :
    ∃ s', KvStore.openFrom (encodeRecords cmds) = .ok s' ∧ Abstracts s' cmds := by
  refine ⟨⟨⟨encodeRecords cmds, (encodeRecords cmds).length⟩, m⟩, openFrom_layout cmds m hrun,
    rfl, ?_⟩
  exact hrun


/-! ### Compaction -/

theorem encodeCommand_getLast (c : Command) : (encodeCommand c).getLast? = some 125 := by
  cases c with
  | Set k v =>
    show (encSetHead ++ jsonStringBytes k ++ [44] ++ jsonStringBytes v ++ [93, 125]).getLast?
      = some 125
    have e : encSetHead ++ jsonStringBytes k ++ [44] ++ jsonStringBytes v ++ [93, 125]
        = (encSetHead ++ jsonStringBytes k ++ [44] ++ jsonStringBytes v ++ [93]) ++ [125] := by
      simp
    rw [e, List.getLast?_concat]
  | Rm k =>
    show (encRmHead ++ jsonStringBytes k ++ [125]).getLast? = some 125
    have e : encRmHead ++ jsonStringBytes k ++ [125]
        = (encRmHead ++ jsonStringBytes k) ++ [125] := by simp
    rw [e, List.getLast?_concat]

/-- The pure content of the compaction rewrite: append each record to the
new file (with the leading-delimiter rule) and record its new payload
offset. -/
def buildNew : List Command → List Nat → Index → List Nat × Index
  | [], nd, ni => (nd, ni)
  | c :: cs, nd, ni =>
    buildNew cs (nd ++ (if nd.length > 0 then [10] else []) ++ encodeCommand c)
      (insertKey ni c.key (nd.length + (if nd.length > 0 then 1 else 0)))

/-- The index the compaction callback accumulates. -/
def foldIdx (ni : Index) (ps : List (Command × Nat)) : Index :=
  ps.foldl (fun m p => insertKey m p.1.key p.2) ni

theorem endOffset_append (xs ys : List Command) :
    ∀ pos : Nat, endOffset pos (xs ++ ys) = endOffset (endOffset pos xs) ys := by
  induction xs with
  | nil => intro pos; rfl
  | cons c rest ih =>
    intro pos
    rw [List.cons_append, endOffset, endOffset, ih]

/-- `compactLoop` over offsets that each hold a live `Set` record computes
exactly `buildNew` of those records. -/
theorem compactLoop_spec (data : List Nat) (offs : List Nat) :
    ∀ cs : List Command,
      List.Forall₂
        (fun off c => (∃ k v, c = Command.Set k v) ∧ RecordAt data off c) offs cs →
      ∀ (nd : List Nat) (ni : Index), compactLoop data offs nd ni = .ok (buildNew cs nd ni) := by
  induction offs with
  | nil =>
    intro cs hf nd ni
    cases hf
    rfl
  | cons off rest_offs ih =>
    intro cs hf nd ni
    cases cs with
    | nil => cases hf
    | cons c rest_cs =>
      cases hf with
      | cons hR hf2 =>
        obtain ⟨⟨k, v, rfl⟩, hrc⟩ := hR
        obtain ⟨w, hw, hu, hchunk⟩ := recordAt_chunk data _ _ hrc
        have hn : (readUntilAux (data.length + 1) data 10 off 0).1
            = untilLen 10 data off := by
          rw [readUntilAux_eq 10 data _ off 0 (by omega)]
          simp
        have hdec : decodeCommand ((data.drop off).take (untilLen 10 data off))
            = some (.Set k v) := by
          rw [hchunk]
          exact decodeCommand_encode_ws _ w (by rcases hw with rfl | rfl <;> rfl)
        have hstrip :
            (if ((data.drop off).take (untilLen 10 data off)).getLast? = some 10
              then ((data.drop off).take (untilLen 10 data off)).dropLast
              else (data.drop off).take (untilLen 10 data off))
            = encodeCommand (.Set k v) := by
          rcases hw with rfl | rfl
          · rw [List.append_nil] at hchunk
            have hgl : ¬ ((encodeCommand (Command.Set k v)).getLast? = some 10) := by
              rw [encodeCommand_getLast]
              simp
            rw [hchunk, if_neg hgl]
          · have hgl : (encodeCommand (Command.Set k v) ++ [10]).getLast? = some 10 :=
              List.getLast?_concat _
            rw [hchunk, if_pos hgl]
            simp
        simp only [compactLoop, hn, hdec, hstrip]
        rw [ih rest_cs hf2]
        rfl

/-- `buildNew` extends an encoded log exactly like appending the commands
to the history, and accumulates the same index as a fold over the new
offsets. -/
theorem buildNew_spec (cs : List Command) :
    ∀ (pre : List Command) (ni : Index),
      buildNew cs (encodeRecords pre) ni
        = (encodeRecords (pre ++ cs), foldIdx ni (offsetsFrom (endOffset 0 pre) cs)) := by
  induction cs with
  | nil =>
    intro pre ni
    simp [buildNew, offsetsFrom, foldIdx]
  | cons c rest ih =>
    intro pre ni
    have hstep : encodeRecords pre ++ (if (encodeRecords pre).length > 0 then [10] else [])
        ++ encodeCommand c = encodeRecords (pre ++ [c]) := (encodeRecords_snoc pre c).symm
    have hoff : (encodeRecords pre).length
        + (if (encodeRecords pre).length > 0 then 1 else 0) = endOffset 0 pre := by
      rw [endOffset_eq_length]
    show buildNew rest (encodeRecords pre ++ _ ++ encodeCommand c) _ = _
    rw [hstep, hoff, ih (pre ++ [c])]
    have hend : endOffset 0 (pre ++ [c]) = endOffset 0 pre + (encodeCommand c).length + 1 := by
      rw [endOffset_append]
      rfl
    rw [hend]
    have hofl : offsetsFrom (endOffset 0 pre) (c :: rest)
        = (c, endOffset 0 pre)
          :: offsetsFrom (endOffset 0 pre + (encodeCommand c).length + 1) rest := rfl
    rw [hofl, List.append_assoc]
    simp only [List.singleton_append]
    rfl

/-- Replaying an all-`Set` history never fails and is a plain insert fold. -/
theorem runIdx_all_set (ps : List (Command × Nat))
    (h : ∀ p ∈ ps, ∃ k v, p.1 = Command.Set k v) :
    ∀ ni : Index, runIdx ps ni = some (foldIdx ni ps) := by
  induction ps with
  | nil => intro ni; rfl
  | cons p rest ih =>
    intro ni
    obtain ⟨k, v, hp⟩ := h p (List.mem_cons_self ..)
    rw [runIdx]
    have hs : stepIdx ni p.1 p.2 = some (insertKey ni p.1.key p.2) := by
      rw [hp]
      rfl
    rw [hs]
    show runIdx rest (insertKey ni p.1.key p.2) = some (foldIdx ni (p :: rest))
    rw [ih (fun q hq => h q (List.mem_cons_of_mem _ hq))]
    rfl


/-! ### From the live index to the retained records -/

theorem lookup_some_lastFor (s : KvStore) (cmds : List Command) (h : Abstracts s cmds)
    (k : String) (off : Nat) (hlk : lookupKey s.index k = some off) :
    ∃ v, lastFor k (withOffsets cmds) = some (.Set k v, off) := by
  have hl := abstracts_lookup s cmds h k
  rw [hlk] at hl
  cases hlf : lastFor k (withOffsets cmds) with
  | none => rw [hlf] at hl; simp at hl
  | some p =>
    obtain ⟨c, off2⟩ := p
    cases c with
    | Rm k2 => rw [hlf] at hl; simp at hl
    | Set k2 v =>
      rw [hlf] at hl
      have hoff : off2 = off := by
        have : some off = some off2 := hl
        simpa using this.symm
      have hk2 : k2 = k := (lastFor_mem k _ _ hlf).2
      refine ⟨v, ?_⟩
      rw [hk2, hoff]

theorem forall₂_exists_right {α β : Type} {R : α → β → Prop} {l1 : List α} {l2 : List β}
    (hf : List.Forall₂ R l1 l2) (b : β) (hb : b ∈ l2) : ∃ a, a ∈ l1 ∧ R a b := by
  induction hf with
  | nil => simp at hb
  | cons hR hf ih =>
    rcases List.mem_cons.mp hb with rfl | hb2
    · exact ⟨_, List.mem_cons_self .., hR⟩
    · obtain ⟨a, ha, hr⟩ := ih hb2
      exact ⟨a, List.mem_cons_of_mem _ ha, hr⟩

theorem forall₂_exists_left {α β : Type} {R : α → β → Prop} {l1 : List α} {l2 : List β}
    (hf : List.Forall₂ R l1 l2) (a : α) (ha : a ∈ l1) : ∃ b, b ∈ l2 ∧ R a b := by
  induction hf with
  | nil => simp at ha
  | cons hR hf ih =>
    rcases List.mem_cons.mp ha with rfl | ha2
    · exact ⟨_, List.mem_cons_self .., hR⟩
    · obtain ⟨b, hb, hr⟩ := ih ha2
      exact ⟨b, List.mem_cons_of_mem _ hb, hr⟩

/-- The relation tying a retained offset to the live `Set` record there. -/
def RetainedR (s : KvStore) (cmds : List Command) (off : Nat) (c : Command) : Prop :=
  ∃ k v, c = Command.Set k v ∧ lookupKey s.index k = some off
    ∧ lastFor k (withOffsets cmds) = some (c, off)

theorem exists_retained_cs (s : KvStore) (cmds : List Command) (h : Abstracts s cmds) :
    ∀ offs : List Nat, (∀ off ∈ offs, off ∈ valuesOf s.index) →
      ∃ cs : List Command, List.Forall₂ (RetainedR s cmds) offs cs := by
  intro offs
  induction offs with
  | nil => exact fun _ => ⟨[], List.Forall₂.nil⟩
  | cons off rest ih =>
    intro hsub
    obtain ⟨cs, hcs⟩ := ih (fun o ho => hsub o (List.mem_cons_of_mem _ ho))
    have hoff := hsub off (List.mem_cons_self ..)
    obtain ⟨p, hpmem, hpsnd⟩ := List.mem_map.mp hoff
    have hlk : lookupKey s.index p.1 = some off := by
      rw [← hpsnd]
      exact mem_lookupKey_of_nodup s.index p.1 p.2 (abstracts_nodup s cmds h) hpmem
    obtain ⟨v, hlf⟩ := lookup_some_lastFor s cmds h p.1 off hlk
    exact ⟨Command.Set p.1 v :: cs, List.Forall₂.cons ⟨p.1, v, rfl, hlk, hlf⟩ hcs⟩

theorem abstracts_values_nodup (s : KvStore) (cmds : List Command) (h : Abstracts s cmds) :
    (valuesOf s.index).Nodup := by
  have hknd := abstracts_nodup s cmds h
  have hmnd : s.index.Nodup := hknd.of_map
  apply List.Nodup.map_on ?_ hmnd
  intro p hp q hq hpq
  have hlp : lookupKey s.index p.1 = some p.2 :=
    mem_lookupKey_of_nodup s.index p.1 p.2 hknd hp
  have hlq : lookupKey s.index q.1 = some q.2 :=
    mem_lookupKey_of_nodup s.index q.1 q.2 hknd hq
  obtain ⟨v1, hlf1⟩ := lookup_some_lastFor s cmds h p.1 p.2 hlp
  obtain ⟨v2, hlf2⟩ := lookup_some_lastFor s cmds h q.1 q.2 hlq
  have hm1 := (lastFor_mem _ _ _ hlf1).1
  have hm2 := (lastFor_mem _ _ _ hlf2).1
  have heq := eq_of_snd_eq_offsetsFrom cmds 0 _ _ hm1 hm2 (by simpa using hpq)
  have hfst : Command.Set p.1 v1 = Command.Set q.1 v2 := by
    have := congrArg Prod.fst heq
    simpa using this
  have hk : p.1 = q.1 := by
    injection hfst with h1 h2
  obtain ⟨p1, p2⟩ := p
  obtain ⟨q1, q2⟩ := q
  simp only at hpq hk
  rw [hk, hpq]

theorem retained_keys_nodup (s : KvStore) (cmds : List Command) :
    ∀ (offs : List Nat) (cs : List Command), List.Forall₂ (RetainedR s cmds) offs cs →
      offs.Nodup → (cs.map Command.key).Nodup := by
  intro offs
  induction offs with
  | nil =>
    intro cs hf _
    cases hf
    simp
  | cons off rest ih =>
    intro cs hf hnd
    cases cs with
    | nil => cases hf
    | cons c rest_cs =>
      cases hf with
      | cons hR hf2 =>
        rw [List.nodup_cons] at hnd
        simp only [List.map_cons, List.nodup_cons]
        refine ⟨?_, ih rest_cs hf2 hnd.2⟩
        intro hmem
        obtain ⟨c', hc', hkey⟩ := List.mem_map.mp hmem
        obtain ⟨off', hoff', hr'⟩ := forall₂_exists_right hf2 c' hc'
        obtain ⟨k, v, rfl, hlk, hlfk⟩ := hR
        obtain ⟨k', v', hce, hlk', hlf'⟩ := hr'
        rw [hce] at hkey
        have hk : k' = k := hkey
        rw [hk] at hlk'
        rw [hlk] at hlk'
        have hoeq : off' = off := (Option.some.inj hlk').symm
        rw [hoeq] at hoff'
        exact hnd.1 hoff'

theorem specGet_of_distinct_sets (cs : List Command) :
    (∀ c ∈ cs, ∃ k0 v0, c = Command.Set k0 v0) → (cs.map Command.key).Nodup →
      ∀ k v : String, Command.Set k v ∈ cs → specGet cs k = some v := by
  induction cs using List.reverseRecOn with
  | nil =>
    intro _ _ k v hm
    simp at hm
  | append_singleton xs c ihx =>
    intro hall hnd k v hm
    obtain ⟨k0, v0, rfl⟩ := hall c (by simp)
    rw [specGet_snoc_set]
    rw [List.map_append] at hnd
    rw [List.nodup_append] at hnd
    rcases List.mem_append.mp hm with hm | hm
    · have hk : ¬ k = k0 := by
        intro he
        have hkin : k ∈ xs.map Command.key := List.mem_map.mpr ⟨Command.Set k v, hm, rfl⟩
        rw [he] at hkin
        exact hnd.2.2 hkin (by simp [Command.key])
      rw [if_neg hk]
      exact ihx (fun c2 hc2 => hall c2 (by simp [hc2])) hnd.1 k v hm
    · simp only [List.mem_singleton] at hm
      have hkv : k = k0 ∧ v = v0 := by
        have := hm
        injection this with h1 h2
        exact ⟨h1, h2⟩
      obtain ⟨rfl, rfl⟩ := hkv
      rw [if_pos rfl]

theorem specGet_none_of_no_key (cs : List Command) (k : String) :
    (∀ c ∈ cs, c.key ≠ k) → specGet cs k = none := by
  induction cs using List.reverseRecOn with
  | nil => intro _; rfl
  | append_singleton xs c ihx =>
    intro hall
    cases c with
    | Set k0 v0 =>
      rw [specGet_snoc_set]
      have hk0 : k0 ≠ k := hall (Command.Set k0 v0) (by simp)
      rw [if_neg (fun he => hk0 he.symm)]
      exact ihx (fun c2 hc2 => hall c2 (by simp [hc2]))
    | Rm k0 =>
      rw [specGet_snoc_rm]
      have hk0 : k0 ≠ k := hall (Command.Rm k0) (by simp)
      rw [if_neg (fun he => hk0 he.symm)]
      exact ihx (fun c2 hc2 => hall c2 (by simp [hc2]))


/-! ### The compaction theorem -/

theorem logCompact_below (s : KvStore) (rOk : Bool) (h : s.file.pos < 16000000) :
    s.logCompact rOk = (.ok false, s) := by
  unfold KvStore.logCompact
  rw [if_pos h]

/-- Compaction over the threshold: rewrites the log to exactly the live
`Set` records in ascending offset order, rebuilds the index to match, and
preserves the observable key/value mapping.  A failed rename leaves the
store (file and index) untouched. -/
theorem logCompact_above (s : KvStore) (cmds : List Command) (h : Abstracts s cmds)
    (hth : ¬ s.file.pos < 16000000) :
    ∃ cmds' s', s.logCompact true = (.ok true, s')
      ∧ Abstracts s' cmds'
      ∧ (∀ k, specGet cmds' k = specGet cmds k)
      ∧ (∀ c ∈ cmds', ∃ k v, c = Command.Set k v)
      ∧ s.logCompact false = (.error .renameFailed, s) := by
  have hperm := List.perm_insertionSort (fun a b : Nat => a ≤ b) (valuesOf s.index)
  have hsub : ∀ off ∈ retainedOffsets s, off ∈ valuesOf s.index := by
    intro off hoff
    exact hperm.mem_iff.mp hoff
  obtain ⟨cs, hcs⟩ := exists_retained_cs s cmds h (retainedOffsets s) hsub
  have hf2 : List.Forall₂
      (fun off c => (∃ k v, c = Command.Set k v) ∧ RecordAt s.file.data off c)
      (retainedOffsets s) cs := by
    apply List.Forall₂.imp ?_ hcs
    intro off c hr
    obtain ⟨k, v, rfl, hlk, hlf⟩ := hr
    refine ⟨⟨k, v, rfl⟩, ?_⟩
    exact recordAt_of_layout cmds s.file.data 0 (by rw [List.drop_zero]; exact h.1) _
      ((lastFor_mem _ _ _ hlf).1)
  have hloop := compactLoop_spec s.file.data (retainedOffsets s) cs hf2 [] []
  have hbuild := buildNew_spec cs [] []
  rw [encodeRecords_nil] at hbuild
  simp only [List.nil_append] at hbuild
  have hend0 : endOffset 0 ([] : List Command) = 0 := rfl
  rw [hend0] at hbuild
  have hallset : ∀ p ∈ withOffsets cs, ∃ k v, p.1 = Command.Set k v := by
    intro p hp
    have hfst : p.1 ∈ cs := by
      have hh : p.1 ∈ (withOffsets cs).map Prod.fst := List.mem_map_of_mem _ hp
      rwa [withOffsets, map_fst_offsetsFrom] at hh
    obtain ⟨off, hoffm, hr⟩ := forall₂_exists_right hcs p.1 hfst
    obtain ⟨k, v, he, _, _⟩ := hr
    exact ⟨k, v, he⟩
  have hrun := runIdx_all_set (withOffsets cs) hallset []
  have hcsall : ∀ c ∈ cs, ∃ k v, c = Command.Set k v := by
    intro c hc
    obtain ⟨off, hoffm, hr⟩ := forall₂_exists_right hcs c hc
    obtain ⟨k, v, he, _, _⟩ := hr
    exact ⟨k, v, he⟩
  have hknd : (cs.map Command.key).Nodup := by
    apply retained_keys_nodup s cmds (retainedOffsets s) cs hcs
    exact hperm.nodup_iff.mpr (abstracts_values_nodup s cmds h)
  refine ⟨cs, ⟨⟨encodeRecords cs, 0⟩, foldIdx [] (withOffsets cs)⟩, ?_, ⟨rfl, ?_⟩, ?_,
    hcsall, ?_⟩
  · unfold KvStore.logCompact
    rw [if_neg hth, hloop, hbuild]
    rfl
  · exact hrun
  · intro k
    cases hlk : lookupKey s.index k with
    | some off =>
      obtain ⟨v, hlf⟩ := lookup_some_lastFor s cmds h k off hlk
      have hsc : specGet cmds k = some v := by rw [specGet_eq_lastFor, hlf]
      have hmemv : off ∈ valuesOf s.index :=
        List.mem_map_of_mem _ (lookupKey_mem s.index k off hlk)
      have hmemr : off ∈ retainedOffsets s := hperm.mem_iff.mpr hmemv
      obtain ⟨c, hcmem, hr⟩ := forall₂_exists_left hcs off hmemr
      obtain ⟨k2, v2, rfl, hlk2, hlf2⟩ := hr
      have hm1 := (lastFor_mem _ _ _ hlf).1
      have hm2 := (lastFor_mem _ _ _ hlf2).1
      have heq := eq_of_snd_eq_offsetsFrom cmds 0 _ _ hm1 hm2 rfl
      have hfst : Command.Set k v = Command.Set k2 v2 := by
        have := congrArg Prod.fst heq
        simpa using this
      have hk2 : k2 = k := by
        injection hfst with h1 h2
        exact h1.symm
      have hv2 : v2 = v := by
        injection hfst with h1 h2
        exact h2.symm
      rw [hsc]
      rw [hk2, hv2] at hcmem
      exact specGet_of_distinct_sets cs hcsall hknd k v hcmem
    | none =>
      rw [(abstracts_lookup_none_iff s cmds h k).mp hlk]
      apply specGet_none_of_no_key
      intro c hc he
      obtain ⟨off, hoffm, hr⟩ := forall₂_exists_right hcs c hc
      obtain ⟨k2, v2, rfl, hlk2, hnu⟩ := hr
      have hke : k2 = k := he
      rw [hke] at hlk2
      rw [hlk] at hlk2
      exact absurd hlk2 (by simp)
  · unfold KvStore.logCompact
    rw [if_neg hth, hloop, hbuild]
    rfl


/-! ### Mutation preservation -/

theorem append_data (f : LogFile) (buf : List Nat) :
    (f.append buf).1.data
      = f.data ++ (if f.data.length > 0 then [10] else []) ++ buf := rfl

theorem append_pos (f : LogFile) (buf : List Nat) :
    (f.append buf).1.pos
      = (f.data ++ (if f.data.length > 0 then [10] else []) ++ buf).length := rfl

/-- After appending the encoding of `c` to the log of history `cmds`, the
computed payload offset `current_file_offset() - len` is exactly the next
record offset of the history. -/
theorem append_offset (s : KvStore) (cmds : List Command) (h : Abstracts s cmds)
    (c : Command) :
    (s.file.append (encodeCommand c)).1.pos - (encodeCommand c).length
      = endOffset 0 cmds := by
  rw [append_pos, endOffset_eq_length, ← h.1]
  by_cases hl : s.file.data.length > 0
  · rw [if_pos hl, if_pos hl]
    simp [List.length_append]
    omega
  · rw [if_neg hl, if_neg hl]
    simp [List.length_append]

theorem append_encodes (s : KvStore) (cmds : List Command) (h : Abstracts s cmds)
    (c : Command) :
    (s.file.append (encodeCommand c)).1.data = encodeRecords (cmds ++ [c]) := by
  rw [append_data, encodeRecords_snoc, h.1]

/-- The index update of a snoc-extended history. -/
theorem runIdx_snoc_set (cmds : List Command) (m : Index)
    (h : runIdx (withOffsets cmds) [] = some m) (k v : String) :
    runIdx (withOffsets (cmds ++ [Command.Set k v])) []
      = some (insertKey m k (endOffset 0 cmds)) := by
  rw [withOffsets] at h
  rw [withOffsets, offsetsFrom_snoc, runIdx_append_some _ _ _ _ h]
  rfl

theorem runIdx_snoc_rm (cmds : List Command) (m : Index)
    (h : runIdx (withOffsets cmds) [] = some m) (k : String) (off : Nat)
    (hlk : lookupKey m k = some off) :
    runIdx (withOffsets (cmds ++ [Command.Rm k])) [] = some (removeKey m k) := by
  rw [withOffsets] at h
  rw [withOffsets, offsetsFrom_snoc, runIdx_append_some _ _ _ _ h, runIdx]
  show (match stepIdx m (Command.Rm k) (endOffset 0 cmds) with
    | some m' => runIdx [] m'
    | none => none) = some (removeKey m k)
  rw [stepIdx, hlk]
  rfl

/-- `set` succeeds and takes the abstract history from `cmds` to one whose
observable mapping is that of `cmds ++ [Set k v]`. -/
theorem set_step (s : KvStore) (cmds : List Command) (h : Abstracts s cmds) (k v : String) :
    ∃ cmds' s', s.set k v = (.ok (), s')
      ∧ Abstracts s' cmds'
      ∧ (∀ k', specGet cmds' k' = specGet (cmds ++ [Command.Set k v]) k') := by
  have hoff := append_offset s cmds h (.Set k v)
  have hdata := append_encodes s cmds h (.Set k v)
  have hs1 : Abstracts
      ⟨(s.file.append (encodeCommand (.Set k v))).1,
        insertKey s.index k
          ((s.file.append (encodeCommand (.Set k v))).1.pos
            - (encodeCommand (.Set k v)).length)⟩
      (cmds ++ [Command.Set k v]) := by
    refine ⟨hdata, ?_⟩
    rw [hoff]
    exact runIdx_snoc_set cmds s.index h.2 k v
  set s1 : KvStore :=
    ⟨(s.file.append (encodeCommand (.Set k v))).1,
      insertKey s.index k
        ((s.file.append (encodeCommand (.Set k v))).1.pos
          - (encodeCommand (.Set k v)).length)⟩ with hs1def
  have hset : s.set k v
      = (match s1.logCompact true with
        | (.ok _, s2) => (.ok (), s2)
        | (.error e, s2) => (.error e, s2)) := rfl
  by_cases hth : s1.file.pos < 16000000
  · rw [hset, logCompact_below s1 true hth]
    exact ⟨cmds ++ [Command.Set k v], s1, rfl, hs1, fun k' => rfl⟩
  · obtain ⟨cmds', s', hcall, habs, hspec, _, _⟩ :=
      logCompact_above s1 (cmds ++ [Command.Set k v]) hs1 hth
    rw [hset, hcall]
    exact ⟨cmds', s', rfl, habs, hspec⟩

/-- `remove` of a present key succeeds and takes the history to one whose
observable mapping is that of `cmds ++ [Rm k]`. -/
theorem remove_step (s : KvStore) (cmds : List Command) (h : Abstracts s cmds)
    (k : String) (off : Nat) (hlk : lookupKey s.index k = some off) :
    ∃ cmds' s', s.remove k true = (.ok (), s')
      ∧ Abstracts s' cmds'
      ∧ (∀ k', specGet cmds' k' = specGet (cmds ++ [Command.Rm k]) k') := by
  have hdata := append_encodes s cmds h (.Rm k)
  have hs1 : Abstracts
      ⟨(s.file.append (encodeCommand (.Rm k))).1, removeKey s.index k⟩
      (cmds ++ [Command.Rm k]) :=
    ⟨hdata, runIdx_snoc_rm cmds s.index h.2 k off hlk⟩
  set s1 : KvStore :=
    ⟨(s.file.append (encodeCommand (.Rm k))).1, removeKey s.index k⟩ with hs1def
  have hrem : s.remove k true
      = (match s1.logCompact true with
        | (.ok _, s2) => (.ok (), s2)
        | (.error e, s2) => (.error e, s2)) := by
    unfold KvStore.remove
    rw [hlk]
    rfl
  by_cases hth : s1.file.pos < 16000000
  · rw [hrem, logCompact_below s1 true hth]
    exact ⟨cmds ++ [Command.Rm k], s1, rfl, hs1, fun k' => rfl⟩
  · obtain ⟨cmds', s', hcall, habs, hspec, _, _⟩ :=
      logCompact_above s1 (cmds ++ [Command.Rm k]) hs1 hth
    rw [hrem, hcall]
    exact ⟨cmds', s', rfl, habs, hspec⟩

/-- `remove` of an absent key fails with "Key not found" and leaves the
whole store — file bytes included — untouched. -/
theorem remove_absent (s : KvStore) (k : String) (appendOk : Bool)
    (h : lookupKey s.index k = none) :
    s.remove k appendOk = (.error .keyNotFound, s) := by
  unfold KvStore.remove
  rw [h]

/-- `remove` of a present key whose tombstone append fails: the error is
reported, the file is untouched, but the key is already gone from the
in-memory index. -/
theorem remove_append_fail (s : KvStore) (k : String) (off : Nat)
    (h : lookupKey s.index k = some off) :
    s.remove k false = (.error .appendFailed, ⟨s.file, removeKey s.index k⟩) := by
  unfold KvStore.remove
  rw [h]
  rfl


/-! ### Replay as a walk over record chunks -/

/-- The record chunks of the log, as the sequential replay scan discovers
them from `pos`: each entry is `(offset, byte count including a trailing
delimiter if present)`.  The scan stops at end-of-data (a zero-length
read).  Fuel-driven like `replayAux`. -/
def chunkList (fuel : Nat) (data : List Nat) (pos : Nat) : List (Nat × Nat) :=
  match fuel with
  | 0 => []
  | fuel + 1 =>
    let n := untilLen 10 data pos
    if n = 0 then [] else (pos, n) :: chunkList fuel data (pos + n)

/-- Replay expressed over an explicit chunk list: decode each chunk in
turn and apply it to the index, failing on a decode error or on a `Rm`
whose key is not live (`.expect` panic in `replay_log_file`). -/
def replayChunks (data : List Nat) : List (Nat × Nat) → Index → Except KvError Index
  | [], m => .ok m
  | (off, n) :: rest, m =>
    match decodeCommand ((data.drop off).take n) with
    | none => .error .decodeError
    | some (.Set k _) => replayChunks data rest (insertKey m k off)
    | some (.Rm k) =>
      match lookupKey m k with
      | none => .error .replayPanic
      | some _ => replayChunks data rest (removeKey m k)

theorem replayAux_eq_chunks (data : List Nat) :
    ∀ (fuel pos : Nat) (m : Index),
      replayAux fuel data pos m = replayChunks data (chunkList fuel data pos) m := by
  intro fuel
  induction fuel with
  | zero => intro pos m; rfl
  | succ fuel ih =>
    intro pos m
    rw [replayAux, chunkList]
    have hr : (readUntilAux (data.length + 1) data 10 pos 0).1 = untilLen 10 data pos := by
      have hru := readUntilAux_eq 10 data (data.length + 1) pos 0 (by omega)
      rw [hru]
      simp
    rw [hr]
    by_cases hn : untilLen 10 data pos = 0
    · rw [if_pos hn, if_pos hn]
      rfl
    · rw [if_neg hn, if_neg hn, replayChunks]
      cases hdc : decodeCommand ((data.drop pos).take (untilLen 10 data pos)) with
      | none => rfl
      | some c =>
        cases c with
        | Set k v =>
          dsimp only
          exact ih (pos + untilLen 10 data pos) (insertKey m k pos)
        | Rm k =>
          dsimp only
          cases lookupKey m k with
          | none => rfl
          | some o => exact ih (pos + untilLen 10 data pos) (removeKey m k)

theorem replayChunks_append_error (data : List Nat) (cs1 : List (Nat × Nat)) :
    ∀ (cs2 : List (Nat × Nat)) (m : Index) (e : KvError),
      replayChunks data cs1 m = .error e →
      replayChunks data (cs1 ++ cs2) m = .error e := by
  induction cs1 with
  | nil => intro cs2 m e h; exact absurd h (by simp [replayChunks])
  | cons p rest ih =>
    intro cs2 m e h
    obtain ⟨off, n⟩ := p
    rw [replayChunks] at h
    rw [List.cons_append, replayChunks]
    cases hdc : decodeCommand ((data.drop off).take n) with
    | none => rw [hdc] at h; exact h
    | some c =>
      rw [hdc] at h
      cases c with
      | Set k v => exact ih cs2 (insertKey m k off) e h
      | Rm k =>
        dsimp only at h ⊢
        cases hlk : lookupKey m k with
        | none => rw [hlk] at h; exact h
        | some o =>
          rw [hlk] at h
          exact ih cs2 (removeKey m k) e h

theorem replayChunks_append_ok (data : List Nat) (cs1 : List (Nat × Nat)) :
    ∀ (cs2 : List (Nat × Nat)) (m m' : Index),
      replayChunks data cs1 m = .ok m' →
      replayChunks data (cs1 ++ cs2) m = replayChunks data cs2 m' := by
  induction cs1 with
  | nil =>
    intro cs2 m m' h
    have : m = m' := by
      rw [replayChunks] at h
      injection h
    rw [List.nil_append, this]
  | cons p rest ih =>
    intro cs2 m m' h
    obtain ⟨off, n⟩ := p
    rw [replayChunks] at h
    rw [List.cons_append, replayChunks]
    cases hdc : decodeCommand ((data.drop off).take n) with
    | none => rw [hdc] at h; exact absurd h (by simp)
    | some c =>
      rw [hdc] at h
      cases c with
      | Set k v => exact ih cs2 (insertKey m k off) m' h
      | Rm k =>
        dsimp only at h ⊢
        cases hlk : lookupKey m k with
        | none => rw [hlk] at h; exact absurd h (by simp)
        | some o =>
          rw [hlk] at h
          exact ih cs2 (removeKey m k) m' h

/-! ### Reachability soundness -/

theorem get_state (s : KvStore) (k : String) :
    (s.get k).2.file.data = s.file.data ∧ (s.get k).2.index = s.index := by
  unfold KvStore.get
  split
  · exact ⟨rfl, rfl⟩
  · dsimp only
    split <;> exact ⟨rfl, rfl⟩

/-- Every state the engine itself can reach is the faithful image of some
consistent command history. -/
theorem reachable_inv (s : KvStore) (h : Reachable s) : Inv s := by
  induction h with
  | openEmpty s hopen =>
    have he : KvStore.openFrom [] = .ok ⟨⟨[], 0⟩, []⟩ := rfl
    rw [he] at hopen
    have hs : (⟨⟨[], 0⟩, []⟩ : KvStore) = s := by
      injection hopen
    refine ⟨[], ?_, ?_⟩
    · rw [← hs]
      rfl
    · rw [← hs]
      rfl
  | reopen s s' hs hopen ih =>
    obtain ⟨cmds, habs⟩ := ih
    rw [habs.1] at hopen
    obtain ⟨s'', hopen2, habs2⟩ := openFrom_abstracts cmds s.index habs.2
    rw [hopen2] at hopen
    have he : s'' = s' := by injection hopen
    exact ⟨cmds, he ▸ habs2⟩
  | setStep s k v hs ih =>
    obtain ⟨cmds, habs⟩ := ih
    obtain ⟨cmds', s', heq, habs', _⟩ := set_step s cmds habs k v
    rw [heq]
    exact ⟨cmds', habs'⟩
  | removeStep s k hs ih =>
    obtain ⟨cmds, habs⟩ := ih
    cases hlk : lookupKey s.index k with
    | none =>
      rw [remove_absent s k true hlk]
      exact ⟨cmds, habs⟩
    | some off =>
      obtain ⟨cmds', s', heq, habs', _⟩ := remove_step s cmds habs k off hlk
      rw [heq]
      exact ⟨cmds', habs'⟩
  | getStep s k hs ih =>
    obtain ⟨cmds, habs⟩ := ih
    obtain ⟨h1, h2⟩ := get_state s k
    refine ⟨cmds, ?_, ?_⟩
    · rw [h1]
      exact habs.1
    · rw [h2]
      exact habs.2

/-! ## The ten specification claims -/

theorem findDelim_some_spec (d : Nat) (l : List Nat) :
    ∀ i, findDelim d l = some i →
      l.take (i + 1) = l.take i ++ [d] ∧ d ∉ l.take i := by
  induction l with
  | nil => intro i h; simp [findDelim] at h
  | cons b rest ih =>
    intro i h
    by_cases hb : b = d
    · rw [findDelim, if_pos hb] at h
      have hi : i = 0 := by
        have : some 0 = some i := h
        injection this with h0
        exact h0.symm
      subst hi
      subst hb
      exact ⟨rfl, by simp⟩
    · rw [findDelim, if_neg hb] at h
      rw [Option.map_eq_some'] at h
      obtain ⟨j, hj, hji⟩ := h
      obtain ⟨ht, hn⟩ := ih j hj
      subst hji
      refine ⟨?_, ?_⟩
      · show b :: rest.take (j + 1) = b :: rest.take j ++ [d]
        rw [ht, List.cons_append]
      · intro hmem
        rw [List.take_succ_cons] at hmem
        rcases List.mem_cons.mp hmem with hbd | hr
        · exact hb hbd.symm
        · exact hn hr

/-- C4: in every reachable store state the log is the encoding of some
history, and for every key `k`: `k` is present in the in-memory index iff
the last record of the history touching `k` is a `Set`, and the stored
offset is exactly the payload offset of that latest `Set` record, whose
encoded bytes sit at that offset in the log. -/
theorem claim_c4_index_invariant (s : KvStore) (h : Reachable s) :
    ∃ cmds : List Command,
      s.file.data = encodeRecords cmds
      ∧ ∀ k : String,
          ((∃ off, lookupKey s.index k = some off)
            ↔ ∃ v off, lastFor k (withOffsets cmds) = some (Command.Set k v, off))
          ∧ ∀ off, lookupKey s.index k = some off →
              ∃ v, lastFor k (withOffsets cmds) = some (Command.Set k v, off)
                ∧ RecordAt s.file.data off (Command.Set k v) := by
  obtain ⟨cmds, habs⟩ := reachable_inv s h
  refine ⟨cmds, habs.1, fun k => ⟨⟨?_, ?_⟩, ?_⟩⟩
  · rintro ⟨off, hoff⟩
    obtain ⟨v, hlf⟩ := lookup_some_lastFor s cmds habs k off hoff
    exact ⟨v, off, hlf⟩
  · rintro ⟨v, off, hlf⟩
    have hl := abstracts_lookup s cmds habs k
    rw [hlf] at hl
    exact ⟨off, hl⟩
  · intro off hoff
    obtain ⟨v, hlf⟩ := lookup_some_lastFor s cmds habs k off hoff
    refine ⟨v, hlf, ?_⟩
    have hmem := (lastFor_mem k (withOffsets cmds) _ hlf).1
    exact recordAt_of_layout cmds s.file.data 0
      (by rw [List.drop_zero]; exact habs.1) _ hmem

theorem claim_c4_index_invariant_witness :
    ∃ cmds : List Command,
      (((⟨⟨[], 0⟩, []⟩ : KvStore).set "a" "b").2).file.data = encodeRecords cmds
      ∧ ∀ k : String,
          ((∃ off, lookupKey (((⟨⟨[], 0⟩, []⟩ : KvStore).set "a" "b").2).index k = some off)
            ↔ ∃ v off, lastFor k (withOffsets cmds) = some (Command.Set k v, off))
          ∧ ∀ off,
              lookupKey (((⟨⟨[], 0⟩, []⟩ : KvStore).set "a" "b").2).index k = some off →
              ∃ v, lastFor k (withOffsets cmds) = some (Command.Set k v, off)
                ∧ RecordAt (((⟨⟨[], 0⟩, []⟩ : KvStore).set "a" "b").2).file.data off
                    (Command.Set k v) :=
  claim_c4_index_invariant _
    (Reachable.setStep ⟨⟨[], 0⟩, []⟩ "a" "b" (Reachable.openEmpty ⟨⟨[], 0⟩, []⟩ rfl))

/-- C5: if `set(k, v)` returned successfully and the following `remove(k)`
returned successfully, then `get(k)` returns `None`, and a further
`remove(k)` — the key now being absent from the index — fails with the
key-not-found error and leaves the whole store, log bytes included,
unchanged.  Both conclusions run the source's index-miss paths, which
consult only the in-memory map and read nothing from disk, so they do not
depend on the read-buffer idealization in `KvStore.get`. -/
theorem claim_c5_deletion (s : KvStore) (cmds : List Command)
    (h : Abstracts s cmds) (k v : String) (s1 s2 : KvStore)
    (h1 : s.set k v = (.ok (), s1))
    (h2 : s1.remove k true = (.ok (), s2)) :
    (s2.get k).1 = .ok none
    ∧ ∀ appendOk, s2.remove k appendOk = (.error .keyNotFound, s2) := by
  obtain ⟨cmds1, s1', heq1, habs1, hspec1⟩ := set_step s cmds h k v
  rw [heq1] at h1
  injection h1 with ha hb
  subst hb
  have hsg1 : specGet cmds1 k = some v := by
    rw [hspec1 k, specGet_snoc_set, if_pos rfl]
  obtain ⟨off, hlk⟩ : ∃ off, lookupKey s1'.index k = some off := by
    cases hcase : lookupKey s1'.index k with
    | none =>
      have hnone := (abstracts_lookup_none_iff s1' cmds1 habs1 k).mp hcase
      rw [hsg1] at hnone
      exact absurd hnone (by simp)
    | some off => exact ⟨off, rfl⟩
  obtain ⟨cmds2, s2', heq2, habs2, hspec2⟩ := remove_step s1' cmds1 habs1 k off hlk
  rw [heq2] at h2
  injection h2 with hc hd
  subst hd
  have hsg2 : specGet cmds2 k = none := by
    rw [hspec2 k, specGet_snoc_rm, if_pos rfl]
  refine ⟨?_, ?_⟩
  · rw [get_spec s2' cmds2 habs2 k, hsg2]
  · intro appendOk
    exact remove_absent s2' k appendOk
      ((abstracts_lookup_none_iff s2' cmds2 habs2 k).mpr hsg2)

theorem claim_c5_deletion_witness :
    ((((⟨⟨[], 0⟩, []⟩ : KvStore).set "a" "b").2.remove "a" true).2.get "a").1 = .ok none
    ∧ ∀ appendOk,
        (((⟨⟨[], 0⟩, []⟩ : KvStore).set "a" "b").2.remove "a" true).2.remove "a" appendOk
          = (.error .keyNotFound,
            (((⟨⟨[], 0⟩, []⟩ : KvStore).set "a" "b").2.remove "a" true).2) :=
  claim_c5_deletion ⟨⟨[], 0⟩, []⟩ [] ⟨rfl, rfl⟩ "a" "b"
    ((⟨⟨[], 0⟩, []⟩ : KvStore).set "a" "b").2
    (((⟨⟨[], 0⟩, []⟩ : KvStore).set "a" "b").2.remove "a" true).2
    rfl rfl

/-- C6: appending `buf` to an empty file writes no delimiter, so the
payload starts at offset 0; appending to a non-empty file of size `s`
writes exactly one delimiter byte first, so the payload starts at offset
`s + 1`; and no delimiter is written after the record, so the file ends
with the last byte of `buf`, never with a trailing delimiter. -/
theorem claim_c6_append_framing (f : LogFile) (buf : List Nat) (hbuf : buf ≠ []) :
    (f.append buf).1.data = f.data ++ (if f.data.length > 0 then [10] else []) ++ buf
    ∧ (f.data = [] → (f.append buf).1.data = buf)
    ∧ (f.data ≠ [] →
        (f.append buf).1.data = f.data ++ 10 :: buf
        ∧ (f.append buf).1.data.take f.data.length = f.data
        ∧ (f.append buf).1.data.drop (f.data.length + 1) = buf)
    ∧ (f.append buf).1.data.getLast? = buf.getLast? := by
  refine ⟨rfl, ?_, ?_, ?_⟩
  · intro hnil
    show f.data ++ (if f.data.length > 0 then [10] else []) ++ buf = buf
    rw [hnil]
    rfl
  · intro hne
    have hl : f.data.length > 0 := List.length_pos.mpr hne
    have hdata : (f.append buf).1.data = f.data ++ 10 :: buf := by
      show f.data ++ (if f.data.length > 0 then [10] else []) ++ buf = f.data ++ 10 :: buf
      rw [if_pos hl, List.append_assoc]
      rfl
    refine ⟨hdata, ?_, ?_⟩
    · rw [hdata]
      exact List.take_left ..
    · rw [hdata]
      have h10 : f.data ++ 10 :: buf = (f.data ++ [10]) ++ buf := by
        rw [List.append_assoc]
        rfl
      rw [h10]
      have hlen : (f.data ++ [10]).length = f.data.length + 1 := by simp
      rw [← hlen, List.drop_left]
  · show (f.data ++ (if f.data.length > 0 then [10] else []) ++ buf).getLast?
        = buf.getLast?
    rw [List.getLast?_append]
    cases hl : buf.getLast? with
    | none => exact absurd (List.getLast?_eq_none_iff.mp hl) hbuf
    | some x => rfl

theorem claim_c6_append_framing_witness :
    ((⟨[104], 1⟩ : LogFile).append [105]).1.data
        = [104] ++ (if ([104] : List Nat).length > 0 then [10] else []) ++ [105]
    ∧ (([104] : List Nat) = [] → ((⟨[104], 1⟩ : LogFile).append [105]).1.data = [105])
    ∧ (([104] : List Nat) ≠ [] →
        ((⟨[104], 1⟩ : LogFile).append [105]).1.data = [104] ++ 10 :: [105]
        ∧ ((⟨[104], 1⟩ : LogFile).append [105]).1.data.take ([104] : List Nat).length
            = [104]
        ∧ ((⟨[104], 1⟩ : LogFile).append [105]).1.data.drop
            (([104] : List Nat).length + 1) = [105])
    ∧ ((⟨[104], 1⟩ : LogFile).append [105]).1.data.getLast? = ([105] : List Nat).getLast? :=
  claim_c6_append_framing ⟨[104], 1⟩ [105] (by decide)

/-- C7: `read_until` returns 0 with an unmoved cursor at end-of-data; when
a delimiter is ahead it returns the byte count up to and including the
first delimiter and leaves the cursor immediately after it; when
end-of-data comes first it returns the remaining bytes, which contain no
delimiter.  The characterization holds for every position, so record
boundaries are detected correctly even when the delimiter falls exactly on
an 8-byte read-chunk boundary. -/
theorem claim_c7_read_until (f : LogFile) (d : Nat) :
    (f.data.length ≤ f.pos → f.readUntil d = (0, f.pos))
    ∧ (∀ i, findDelim d (f.data.drop f.pos) = some i →
        f.readUntil d = (i + 1, f.pos + (i + 1))
        ∧ (f.data.drop f.pos).take (i + 1) = (f.data.drop f.pos).take i ++ [d]
        ∧ d ∉ (f.data.drop f.pos).take i)
    ∧ (findDelim d (f.data.drop f.pos) = none → f.pos < f.data.length →
        f.readUntil d = (f.data.length - f.pos, f.data.length)
        ∧ d ∉ f.data.drop f.pos) := by
  have hru : f.readUntil d
      = (0 + untilLen d f.data f.pos, f.pos + untilLen d f.data f.pos) :=
    readUntilAux_eq d f.data (f.data.length + 1) f.pos 0 (by omega)
  refine ⟨?_, ?_, ?_⟩
  · intro hle
    have hdrop : f.data.drop f.pos = [] := List.drop_eq_nil_of_le hle
    have hul : untilLen d f.data f.pos = 0 := by
      rw [untilLen, hdrop]
      show (match findDelim d ([] : List Nat) with
        | some i => i + 1
        | none => f.data.length - f.pos) = 0
      show f.data.length - f.pos = 0
      omega
    rw [hru, hul]
    rfl
  · intro i hfd
    have hul : untilLen d f.data f.pos = i + 1 := by
      rw [untilLen, hfd]
    obtain ⟨htake, hnot⟩ := findDelim_some_spec d (f.data.drop f.pos) i hfd
    refine ⟨?_, htake, hnot⟩
    rw [hru, hul, Nat.zero_add]
  · intro hfd hlt
    have hul : untilLen d f.data f.pos = f.data.length - f.pos := by
      rw [untilLen, hfd]
    refine ⟨?_, (findDelim_eq_none_iff d _).mp hfd⟩
    rw [hru, hul, Nat.zero_add]
    have hpa : f.pos + (f.data.length - f.pos) = f.data.length := by omega
    rw [hpa]

/-- C8: the encoded record of every command — `Set` or `Rm`, for every key
and value string, including ones containing the newline character —
contains no occurrence of the delimiter byte `0x0A`, and decoding the
encoded record yields the original command. -/
theorem claim_c8_encoding_framing (c : Command) :
    10 ∉ encodeCommand c ∧ decodeCommand (encodeCommand c) = some c :=
  ⟨delim_not_mem_encodeCommand c, decodeCommand_encode c⟩

/-- C9: if scanning the log record by record reaches a chunk that fails to
decode as a command, or one that decodes to a `Rm` for a key with no index
entry at that point of the replay, then `open` against those log bytes
fails. -/
theorem claim_c9_corrupt_open_fails (data : List Nat)
    (cs1 cs2 : List (Nat × Nat)) (off n : Nat)
    (hcs : chunkList (data.length + 1) data 0 = cs1 ++ (off, n) :: cs2)
    (hbad : decodeCommand ((data.drop off).take n) = none
      ∨ ∃ k m, replayChunks data cs1 [] = .ok m
          ∧ decodeCommand ((data.drop off).take n) = some (Command.Rm k)
          ∧ lookupKey m k = none) :
    ∃ e, KvStore.openFrom data = .error e := by
  suffices hsuff : ∃ e, replayChunks data (chunkList (data.length + 1) data 0) []
      = .error e by
    obtain ⟨e, he⟩ := hsuff
    refine ⟨e, ?_⟩
    unfold KvStore.openFrom
    rw [replayAux_eq_chunks, he]
  rw [hcs]
  cases hpre : replayChunks data cs1 [] with
  | error e => exact ⟨e, replayChunks_append_error data cs1 ((off, n) :: cs2) [] e hpre⟩
  | ok m =>
    rw [replayChunks_append_ok data cs1 ((off, n) :: cs2) [] m hpre]
    rcases hbad with hdec | ⟨k, m2, hok, hdec, hlk⟩
    · refine ⟨.decodeError, ?_⟩
      rw [replayChunks, hdec]
    · have hm : m2 = m := by
        rw [hpre] at hok
        injection hok with hmm
        exact hmm.symm
      rw [hm] at hlk
      refine ⟨.replayPanic, ?_⟩
      rw [replayChunks, hdec]
      dsimp only
      rw [hlk]

theorem claim_c9_corrupt_open_fails_witness :
    ∃ e, KvStore.openFrom [120] = .error e :=
  claim_c9_corrupt_open_fails [120] [] [] 0 1 (by decide) (Or.inl (by decide))

/-- C10: after any `remove(k)` return — success, key-not-found failure, or
an injected failure of the tombstone append — `k` is absent from the
in-memory index, because the index entry is removed before the tombstone
record is appended. -/
theorem claim_c10_remove_clears_index (s : KvStore) (cmds : List Command)
    (h : Abstracts s cmds) (k : String) (appendOk : Bool) :
    lookupKey ((s.remove k appendOk).2).index k = none := by
  cases hlk : lookupKey s.index k with
  | none =>
    rw [remove_absent s k appendOk hlk]
    exact hlk
  | some off =>
    cases appendOk with
    | false =>
      rw [remove_append_fail s k off hlk]
      exact lookupKey_removeKey_self s.index k
    | true =>
      obtain ⟨cmds', s', heq, habs', hspec⟩ := remove_step s cmds h k off hlk
      rw [heq]
      show lookupKey s'.index k = none
      refine (abstracts_lookup_none_iff s' cmds' habs' k).mpr ?_
      rw [hspec k, specGet_snoc_rm, if_pos rfl]

theorem claim_c10_remove_clears_index_witness :
    lookupKey (((⟨⟨encodeRecords [Command.Set "a" "b"],
          (encodeRecords [Command.Set "a" "b"]).length⟩,
        [("a", 0)]⟩ : KvStore).remove "a" true).2).index "a" = none :=
  claim_c10_remove_clears_index
    ⟨⟨encodeRecords [Command.Set "a" "b"],
        (encodeRecords [Command.Set "a" "b"]).length⟩, [("a", 0)]⟩
    [Command.Set "a" "b"] ⟨rfl, by decide⟩ "a" true

end KvsModel
